import Mathlib

/-!
Formal model of the aws-lambda-upload packaging pipeline (src/lib/main.ts).

The development shallowly embeds the packaging pipeline: the memoizing
`_makeTmpZipFile` (cache check, dependency collection, entry-stub synthesis,
timestamp normalization, zip build), the `fsWalk` traversal, the S3 sink
`packageZipS3` (bucket check, content-addressed key, existence check, upload)
and the template parsing of `parseTemplate` / `cloudformationPackage`.

Paths are modelled at the character level, mirroring the posix variants of the
Node `path` library functions used by the source (`dirname`, `parse`,
`extname`, `join`, `normalize`, `relative`).  The filesystem is modelled as a
tree of files and directories carrying atime/mtime stamps.
-/

namespace AwsLambdaUpload

/-! ### Posix path model (Node `path.posix`), at the level of `List Char` -/

/-- Join a list of path segments with the separator character. -/
def joinSegs : List (List Char) → List Char
  | [] => []
  | [s] => s
  | s :: s2 :: rest => s ++ '/' :: joinSegs (s2 :: rest)

/-- Accumulating splitter for `segsCh`: splits on the separator, dropping
empty segments (as every Node path-normalization loop does). -/
def segsAux (acc : List Char) : List Char → List (List Char)
  | [] => if acc = [] then [] else [acc.reverse]
  | c :: rest =>
    if c = '/' then
      if acc = [] then segsAux [] rest else acc.reverse :: segsAux [] rest
    else segsAux (c :: acc) rest

/-- Split a path into its nonempty segments. -/
def segsCh (l : List Char) : List (List Char) := segsAux [] l

/-- Model of Node `path.posix.dirname`: everything before the last separator,
ignoring trailing separators; `"."` when there is none.  The source scans
indices from the end down to index 1, so a leading separator is never itself
assigned as the cut point; the `"//"` results mirror that. -/
def dirnameCh (l : List Char) : List Char :=
  match l with
  | [] => ['.']
  | c :: rest =>
    if c = '/' then
      let r1 := rest.reverse.dropWhile (fun x => x = '/')
      match r1.dropWhile (fun x => x ≠ '/') with
      | [] => ['/']
      | _ :: beforeRev => if beforeRev = [] then ['/', '/'] else '/' :: beforeRev.reverse
    else
      let r1 := (c :: rest).reverse.dropWhile (fun x => x = '/')
      match r1.dropWhile (fun x => x ≠ '/') with
      | [] => ['.']
      | _ :: beforeRev => beforeRev.reverse

/-- String wrapper for `dirnameCh`. -/
def pathDirname (s : String) : String := ⟨dirnameCh s.data⟩

/-- Split a base name at its last dot: returns the part before the last dot
and the extension (which starts with the dot), or `none` when the base
contains no dot. -/
def lastDotSplit (b : List Char) : Option (List Char × List Char) :=
  let r := b.reverse
  let afterRev := r.takeWhile (fun c => c ≠ '.')
  match r.dropWhile (fun c => c ≠ '.') with
  | [] => none
  | _ :: beforeRev => some (beforeRev.reverse, '.' :: afterRev.reverse)

/-- Name/extension split of a base name, mirroring the fused condition of the
Node `path.posix.parse` / `extname` scan: a base with no dot, a base whose
only leading char is the last dot (a dotfile) and the base `".."` have no
extension. -/
def baseNameExt (b : List Char) : List Char × List Char :=
  match lastDotSplit b with
  | none => (b, [])
  | some (before, ex) =>
    if before = [] then (b, [])
    else if b = ['.', '.'] then (b, [])
    else (before, ex)

/-- Result of `path.posix.parse`. -/
structure PathParsed where
  root : String
  dir : String
  base : String
  ext : String
  name : String
deriving DecidableEq

/-- Model of Node `path.posix.parse` (the `root`/`dir`/`base`/`ext`/`name`
record).  The scan skips trailing separators, takes the base as the run after
the last remaining separator, and splits name/extension via `baseNameExt`. -/
def pathParse (s : String) : PathParsed :=
  match s.data with
  | [] => ⟨"", "", "", "", ""⟩
  | c :: rest =>
    if c = '/' then
      let r1 := rest.reverse.dropWhile (fun x => x = '/')
      let b := (r1.takeWhile (fun x => x ≠ '/')).reverse
      let ne := baseNameExt b
      let dirC : List Char :=
        match r1.dropWhile (fun x => x ≠ '/') with
        | [] => ['/']
        | _ :: dRev => '/' :: dRev.reverse
      ⟨"/", ⟨dirC⟩, ⟨b⟩, ⟨ne.2⟩, ⟨ne.1⟩⟩
    else
      let r1 := (c :: rest).reverse.dropWhile (fun x => x = '/')
      let b := (r1.takeWhile (fun x => x ≠ '/')).reverse
      let ne := baseNameExt b
      let dirC : List Char :=
        match r1.dropWhile (fun x => x ≠ '/') with
        | [] => []
        | _ :: dRev => dRev.reverse
      ⟨"", ⟨dirC⟩, ⟨b⟩, ⟨ne.2⟩, ⟨ne.1⟩⟩

/-- Model of Node `path.posix.extname`: the extension (with leading dot) of
the base name of the path, `""` when the base has none. -/
def pathExtname (s : String) : String :=
  let r1 := s.data.reverse.dropWhile (fun x => x = '/')
  ⟨(baseNameExt ((r1.takeWhile (fun x => x ≠ '/')).reverse)).2⟩

/-- Segment normalization shared by `normalize`/`resolve` (Node
`normalizeString`): drops `"."` segments, resolves `".."` against the
accumulated prefix; when `allowUp` is set (relative normalization) unmatched
`".."` segments are kept, otherwise (absolute resolution) they are dropped.
The accumulator holds the output segments in reverse. -/
def normSegsAux (allowUp : Bool) (acc : List (List Char)) : List (List Char) → List (List Char)
  | [] => acc.reverse
  | s :: rest =>
    if s = ['.'] then normSegsAux allowUp acc rest
    else if s = ['.', '.'] then
      match acc with
      | [] => if allowUp then normSegsAux allowUp [['.', '.']] rest else normSegsAux allowUp [] rest
      | t :: as =>
        if t = ['.', '.'] then normSegsAux allowUp (s :: acc) rest
        else normSegsAux allowUp as rest
    else normSegsAux allowUp (s :: acc) rest

/-- Model of Node `path.posix.normalize` at the character level: resolves
`"."`, `".."` and empty segments, preserving a leading separator (absolute
paths) and a trailing separator. -/
def normalizeCh (l : List Char) : List Char :=
  match l with
  | [] => ['.']
  | c :: _ =>
    let abs := c = '/'
    let trail := l.getLast? = some '/'
    let n := normSegsAux (!abs) [] (segsCh l)
    match n with
    | [] => if abs then ['/'] else if trail then ['.', '/'] else ['.']
    | _ =>
      (if abs then '/' :: joinSegs n else joinSegs n) ++ (if trail then ['/'] else [])

/-- String wrapper for `normalizeCh`. -/
def pathNormalize (s : String) : String := ⟨normalizeCh s.data⟩

/-- Model of Node `path.posix.join` for two arguments: the nonempty arguments
joined with a separator and normalized; `"."` when both are empty. -/
def pathJoin (a b : String) : String :=
  if a = "" then (if b = "" then "." else pathNormalize b)
  else if b = "" then pathNormalize a
  else pathNormalize ⟨a.data ++ '/' :: b.data⟩

/-- Model of Node `path.posix.resolve` of a single path against the working
directory `cwd`, as a list of segments: an absolute path is normalized on its
own, a relative one is appended to `cwd` first.  `resolve` output is
absolute, so unmatched `".."` segments are dropped. -/
def resolveSegs (cwd : String) (p : String) : List (List Char) :=
  match p.data with
  | '/' :: _ => normSegsAux false [] (segsCh p.data)
  | _ => normSegsAux false [] (segsCh (cwd.data ++ '/' :: p.data))

/-- Length of the longest common prefix of two segment lists. -/
def commonPrefixLen : List (List Char) → List (List Char) → Nat
  | a :: as, b :: bs => if a = b then commonPrefixLen as bs + 1 else 0
  | _, _ => 0

/-- Model of Node `path.posix.relative(from, to)` with working directory
`cwd`: both arguments are resolved, the common prefix is dropped, and the
result climbs with `".."` for every remaining `from` segment before
descending into the remaining `to` segments. -/
def pathRelative (cwd from_ to_ : String) : String :=
  let f := resolveSegs cwd from_
  let t := resolveSegs cwd to_
  let k := commonPrefixLen f t
  ⟨joinSegs (List.replicate (f.length - k) ['.', '.'] ++ t.drop k)⟩

/-- Node module resolution of `require("./" ++ r)` from the archive root over
the set of staged relative paths: the exact path is tried first, then the
path with the `.js` extension appended. -/
def resolveRequire (staged : List String) (r : String) : Option String :=
  if r ∈ staged then some r
  else if (r ++ ".js") ∈ staged then some (r ++ ".js")
  else none

/-! ### Entry stub synthesis (src/lib/main.ts lines 112-121) -/

/-- The stub gate of line 112: a stub is synthesized iff the dirname of the
entry path is not `"."`. -/
def stubDecision (startPath : String) : Bool := pathDirname startPath != "."

/-- Line 118: the stub file name is the parsed name of the entry with the
extension forced to `.js`. -/
def stubNameOf (startPath : String) : String := (pathParse startPath).name ++ ".js"

/-- Line 118: the full stub path, `path.join(stageDir, start.name + ".js")`. -/
def stubPathOf (stageDir startPath : String) : String := pathJoin stageDir (stubNameOf startPath)

/-- Line 119: `path.relative("", path.join(start.dir, start.name))`, with the
process working directory made explicit. -/
def requirePathOf (cwd startPath : String) : String :=
  pathRelative cwd "" (pathJoin (pathParse startPath).dir (pathParse startPath).name)

/-- Line 120: the contents written to the stub file. -/
def stubContentsOf (cwd startPath : String) : String :=
  "module.exports = require(\"./" ++ requirePathOf cwd startPath ++ "\");\n"

/-! ### Filesystem tree model -/

/-- A filesystem node: a regular file with contents, or a directory with
named children; both carry access and modification timestamps. -/
inductive FsNode where
  | file (contents : String) (atime mtime : Int)
  | dir (children : List (String × FsNode)) (atime mtime : Int)

/-- Access time of a node. -/
def atimeOf : FsNode → Int
  | .file _ a _ => a
  | .dir _ a _ => a

/-- Modification time of a node. -/
def mtimeOf : FsNode → Int
  | .file _ _ m => m
  | .dir _ _ m => m

/-- Contents of a node: `some` for files, `none` for directories. -/
def contentsOf : FsNode → Option String
  | .file c _ _ => some c
  | .dir _ _ _ => none

/-- Replace the timestamps of a node, keeping everything else. -/
def setTimes (a m : Int) : FsNode → FsNode
  | .file c _ _ => .file c a m
  | .dir ch _ _ => .dir ch a m

/-- Model of `entries.sort()` (line 76): directory entries ordered by name,
JS `Array.sort` comparing strings lexicographically. -/
def sortCh (ch : List (String × FsNode)) : List (String × FsNode) :=
  List.insertionSort (fun a b => a.1 ≤ b.1) ch

/-- Push the elements of a list, one at a time in order, onto a head-first
stack (models repeated `todo.push(...)` with `todo.pop()` taking the head of
our representation). -/
def pushAll : List α → List α → List α
  | [], st => st
  | x :: xs, st => pushAll xs (x :: st)

/-- Model of the `fsWalk` loop (lines 70-81): a work stack is popped; the
entry is visited; for a directory, its entries are sorted, reversed and
pushed, so that they pop in ascending order.  The JS array used with
`push`/`pop` at its end is represented head-first, `todo.pop()` taking the
head.  Returns the sequence of (path, stat) visits, paths as segment lists
relative to the walk root. -/
def fsWalkLoop : List (List String × FsNode) → List (List String × FsNode)
  | [] => []
  | (p, FsNode.file c a m) :: rest => (p, FsNode.file c a m) :: fsWalkLoop rest
  | (p, FsNode.dir ch a m) :: rest =>
    (p, FsNode.dir ch a m) ::
      fsWalkLoop (pushAll (((sortCh ch).reverse).map (fun e => (p ++ [e.1], e.2))) rest)
termination_by todo => (todo.map (fun e => sizeOf e.2)).sum
decreasing_by
  · simp only [List.map_cons, List.sum_cons]
    have h1 : 0 < sizeOf (FsNode.file c a m) := by
      simp
    omega
  · have hpush : ∀ (xs st : List (List String × FsNode)), pushAll xs st = xs.reverse ++ st := by
      intro xs
      induction xs with
      | nil => intro st; simp [pushAll]
      | cons x xs ih => intro st; simp [pushAll, ih]
    rw [hpush]
    simp only [List.map_append, List.sum_append, List.map_cons, List.sum_cons,
      List.map_reverse, List.sum_reverse, List.map_map]
    have hperm : ((sortCh ch).map (fun e => sizeOf e.2)).sum = (ch.map (fun e => sizeOf e.2)).sum :=
      ((List.perm_insertionSort (fun a b => a.1 ≤ b.1) ch).map (fun e => sizeOf e.2)).sum_eq
    have hlt : ∀ (l : List (String × FsNode)), (l.map (fun e => sizeOf e.2)).sum ≤ sizeOf l := by
      intro l
      induction l with
      | nil => simp
      | cons x tl ih => simp only [List.map_cons, List.sum_cons]; cases x; simp; omega
    have hsz : sizeOf ch < sizeOf (FsNode.dir ch a m) := by simp; omega
    have := hlt ch
    simp only [Function.comp] at *
    calc ((sortCh ch).map (fun e => sizeOf e.2)).sum + (rest.map (fun e => sizeOf e.2)).sum
        = (ch.map (fun e => sizeOf e.2)).sum + (rest.map (fun e => sizeOf e.2)).sum := by rw [hperm]
      _ < sizeOf (FsNode.dir ch a m) + (rest.map (fun e => sizeOf e.2)).sum := by omega

/-- Embedding of `fsWalk(topDir, cb)` (lines 69-82): the exact sequence of
(path, stat) pairs that `cb` receives, starting from the root entry itself.
`path.join(fpath, e)` with a plain entry name appends one segment. -/
def fsWalk (root : List String) (t : FsNode) : List (List String × FsNode) :=
  fsWalkLoop [(root, t)]

/-- Lexicographic preorder of a tree (the visit order stated by the spec):
every entry is listed once, a directory before its children, and the children
of each directory in ascending name order. -/
def lexPre (r : List String) : FsNode → List (List String × FsNode)
  | FsNode.file c a m => [(r, FsNode.file c a m)]
  | FsNode.dir ch a m =>
    (r, FsNode.dir ch a m) ::
      (sortCh ch).attach.flatMap (fun e => lexPre (r ++ [e.1.1]) e.1.2)
termination_by t => sizeOf t
decreasing_by
  have hm := e.2
  simp only [sortCh, List.mem_insertionSort] at hm
  have hlt : ∀ (l : List (String × FsNode)) (x : String × FsNode), x ∈ l → sizeOf x.2 < sizeOf l := by
    intro l
    induction l with
    | nil => intro x h; cases h
    | cons y tl ih =>
      intro x h
      rcases List.mem_cons.mp h with h | h
      · subst h; cases x; simp; omega
      · have := ih x h; simp; omega
  have := hlt _ e.1 hm
  simp
  omega

/-- Structural enumeration of the entries of a tree (unsorted), used to state
that a traversal visits each entry exactly once. -/
def entriesList (r : List String) : FsNode → List (List String × FsNode)
  | FsNode.file c a m => [(r, FsNode.file c a m)]
  | FsNode.dir ch a m =>
    (r, FsNode.dir ch a m) :: ch.attach.flatMap (fun e => entriesList (r ++ [e.1.1]) e.1.2)
termination_by t => sizeOf t
decreasing_by
  have hlt : ∀ (l : List (String × FsNode)) (x : String × FsNode), x ∈ l → sizeOf x.2 < sizeOf l := by
    intro l
    induction l with
    | nil => intro x h; cases h
    | cons y tl ih =>
      intro x h
      rcases List.mem_cons.mp h with h | h
      · subst h; cases x; simp; omega
      · have := ih x h; simp; omega
  have := hlt _ e.1 e.2
  simp
  omega

/-- Update the first child with the given name by the given function. -/
def updChWith (upd : FsNode → FsNode) : List (String × FsNode) → String → List (String × FsNode)
  | [], _ => []
  | (n0, e0) :: tl, n =>
    if n0 = n then (n0, upd e0) :: tl else (n0, e0) :: updChWith upd tl n

/-- Apply a function to the node addressed by a segment path (first matching
child at each level), leaving the tree unchanged when the path is missing. -/
def updateAt : FsNode → List String → (FsNode → FsNode) → FsNode
  | t, [], f => f t
  | FsNode.file c a m, _ :: _, _ => FsNode.file c a m
  | FsNode.dir ch a m, n :: p, f => FsNode.dir (updChWith (fun c => updateAt c p f) ch n) a m
termination_by _ p _ => p

/-- Embedding of the normalization step (line 125):
`fsWalk(stageDir, (fpath, st) => fse.utimes(fpath, st.atime.getTime() / 1000, 0))`.
Each visited path has its atime rewritten to the stat captured by the walk and
its mtime set to 0.  Each entry is stat-ed exactly once, before its own
`utimes`, and `utimes` of one entry alters no other entry, so the stats the
callback receives are those of the original tree. -/
def normalizeTree (t : FsNode) : FsNode :=
  (fsWalk [] t).foldl (fun acc e => updateAt acc e.1 (setTimes (atimeOf e.2) 0)) t

/-- Recursive map setting every mtime in the tree to 0 and keeping atimes:
the net effect the normalization step is proved to have. -/
def mapMtimeZero : FsNode → FsNode
  | FsNode.file c a _ => FsNode.file c a 0
  | FsNode.dir ch a _ =>
    FsNode.dir (ch.attach.map (fun e => (e.1.1, mapMtimeZero e.1.2))) a 0
termination_by t => sizeOf t
decreasing_by
  have hlt : ∀ (l : List (String × FsNode)) (x : String × FsNode), x ∈ l → sizeOf x.2 < sizeOf l := by
    intro l
    induction l with
    | nil => intro x h; cases h
    | cons y tl ih =>
      intro x h
      rcases List.mem_cons.mp h with h | h
      · subst h; cases x; simp; omega
      · have := ih x h; simp; omega
  have := hlt _ e.1 e.2
  simp
  omega

/-- Erase all timestamps of a tree (contents and structure only). -/
def stripTimes : FsNode → FsNode
  | FsNode.file c _ _ => FsNode.file c 0 0
  | FsNode.dir ch _ _ =>
    FsNode.dir (ch.attach.map (fun e => (e.1.1, stripTimes e.1.2))) 0 0
termination_by t => sizeOf t
decreasing_by
  have hlt : ∀ (l : List (String × FsNode)) (x : String × FsNode), x ∈ l → sizeOf x.2 < sizeOf l := by
    intro l
    induction l with
    | nil => intro x h; cases h
    | cons y tl ih =>
      intro x h
      rcases List.mem_cons.mp h with h | h
      · subst h; cases x; simp; omega
      · have := ih x h; simp; omega
  have := hlt _ e.1 e.2
  simp
  omega

/-- Every mtime in the tree is 0. -/
def allMtimeZero : FsNode → Bool
  | FsNode.file _ _ m => m == 0
  | FsNode.dir ch _ m =>
    (m == 0) && ch.attach.all (fun e => allMtimeZero e.1.2)
termination_by t => sizeOf t
decreasing_by
  have hlt : ∀ (l : List (String × FsNode)) (x : String × FsNode), x ∈ l → sizeOf x.2 < sizeOf l := by
    intro l
    induction l with
    | nil => intro x h; cases h
    | cons y tl ih =>
      intro x h
      rcases List.mem_cons.mp h with h | h
      · subst h; cases x; simp; omega
      · have := ih x h; simp; omega
  have := hlt _ e.1 e.2
  simp
  omega

/-- No duplicates in a list of names. -/
def namesNodup : List String → Bool
  | [] => true
  | n :: tl => (!(tl.any (fun m => m == n))) && namesNodup tl

/-- Well-formedness of a tree as a filesystem: sibling names are distinct at
every level. -/
def wfTree : FsNode → Bool
  | FsNode.file _ _ _ => true
  | FsNode.dir ch _ _ =>
    namesNodup (ch.map Prod.fst) && ch.attach.all (fun e => wfTree e.1.2)
termination_by t => sizeOf t
decreasing_by
  have hlt : ∀ (l : List (String × FsNode)) (x : String × FsNode), x ∈ l → sizeOf x.2 < sizeOf l := by
    intro l
    induction l with
    | nil => intro x h; cases h
    | cons y tl ih =>
      intro x h
      rcases List.mem_cons.mp h with h | h
      · subst h; cases x; simp; omega
      · have := ih x h; simp; omega
  have := hlt _ e.1 e.2
  simp
  omega

/-- Contents of the file at a segment path (first matching child at each
level), `none` when the path is missing or names a directory. -/
def findFileAt : FsNode → List String → Option String
  | FsNode.file c _ _, [] => some c
  | FsNode.dir _ _ _, [] => none
  | FsNode.file _ _ _, _ :: _ => none
  | FsNode.dir ch _ _, n :: p =>
    match ch.find? (fun e => e.1 == n) with
    | none => none
    | some e => findFileAt e.2 p
termination_by _ p => p

/-- Effect of `fse.writeFile` on the children of the staging root: an
existing file of that name is overwritten (truncated), an existing directory
makes the write fail (EISDIR, modelled as `none`), and otherwise a new file
is appended. -/
def writeChild (nm : String) (c : String) (a m : Int) :
    List (String × FsNode) → Option (List (String × FsNode))
  | [] => some [(nm, FsNode.file c a m)]
  | (n0, e0) :: tl =>
    if n0 = nm then
      match e0 with
      | FsNode.dir _ _ _ => none
      | FsNode.file _ _ _ => some ((n0, FsNode.file c a m) :: tl)
    else (writeChild nm c a m tl).map (fun tl2 => (n0, e0) :: tl2)

/-- Write a file directly under the root of the staging tree. -/
def writeRootFile (t : FsNode) (nm : String) (c : String) (a m : Int) : Option FsNode :=
  match t with
  | FsNode.file _ _ _ => none
  | FsNode.dir ch da dm => (writeChild nm c a m ch).map (fun ch2 => FsNode.dir ch2 da dm)

/-- Content of an archive produced by `zip -q -r -X zipPath .` from the
staging root (line 134): a deterministic serialization of the staged tree,
one record per entry in traversal order, carrying the relative path, the file
contents (`none` for a directory entry) and the mtime stored in the archive.
`-X` omits the extra fields that would record atimes/ownership. -/
abbrev ZipData := List (List String × Option String × Int)

/-- Serialize the normalized staging tree into the archive content. -/
def zipBytes (t : FsNode) : ZipData :=
  (fsWalk [] t).map (fun e => (e.1, contentsOf e.2, mtimeOf e.2))

/-! ### The packaging pipeline `_makeTmpZipFile` (lines 88-145) -/

/-- Pipeline failures: the collector run, the stub write or the zip build. -/
inductive PipeErr where
  | collectFailed
  | writeStubFailed
  | zipFailed
deriving DecidableEq

/-- `ZipFileCache = Map<string, string>` modelled as an association list in
insertion order. -/
abbrev ZipFileCache := List (String × String)

/-- `cache.has(k)`. -/
def cacheHas (c : ZipFileCache) (k : String) : Bool := c.any (fun e => e.1 == k)

/-- `cache.get(k)!` (the source asserts presence). -/
def cacheGet (c : ZipFileCache) (k : String) : String :=
  ((c.find? (fun e => e.1 == k)).map Prod.snd).getD ""

/-- `cache.set(k, v)`: replaces the value of an existing key in place,
otherwise appends. -/
def cacheSet (c : ZipFileCache) (k v : String) : ZipFileCache :=
  match c with
  | [] => [(k, v)]
  | e :: tl => if e.1 = k then (k, v) :: tl else e :: cacheSet tl k v

/-- Assignment to a `process.env` entry: Node stringifies the assigned value,
so assigning `undefined` stores the string `"undefined"` rather than removing
the variable. -/
def envAssign (v : Option String) : Option String := some (v.getD "undefined")

/-- Ambient behaviour of the external collaborators of one
`_makeTmpZipFile` run: the working directory, the Dependency Collector
(`collect-js-deps`, out of scope, consumed as a black box: `none` is a failed
run, `some t` the staged tree it leaves in the staging directory), the
timestamps the filesystem gives the stub file, the temporary name picked by
`tmp.file` and the exit status of the `zip` process. -/
structure CollectEnv where
  cwd : String
  collect : String → Option FsNode
  stubAtime : Int
  stubMtime : Int
  tmpZipName : String
  zipOk : Bool

/-- The options of `ICollectOpts` relevant to the model: `browserifyArgs` and
`tsconfig` only shape the argument list handed to the collector (absorbed
into `CollectEnv.collect`). -/
structure CollectOpts where
  nodePath : Option String
  cache : Option ZipFileCache

/-- Observable outcome of one `_makeTmpZipFile` call: the returned path or
error, the cache after the call, `process.env.NODE_PATH` after the call,
whether the Dependency Collector was invoked, and the content of the archive
built by this call (`none` on a cache hit or failure). -/
structure MakeZipOut where
  result : Except PipeErr String
  cache : Option ZipFileCache
  nodePath : Option String
  collectorCalled : Bool
  archive : Option ZipData

/-- Stub synthesis step (lines 112-121): when the dirname of the entry path
is not `"."`, write the top-level stub file.  The stub path
`path.join(stageDir, start.name + ".js")` addresses the root child
`start.name ++ ".js"` of the staging tree. -/
def stubStep (env : CollectEnv) (startPath : String) (t : FsNode) : Option FsNode :=
  if pathDirname startPath = "." then some t
  else
    writeRootFile t (stubNameOf startPath) (stubContentsOf env.cwd startPath)
      env.stubAtime env.stubMtime

/-- Lines 95-144 of `_makeTmpZipFile`: the cache-miss build.  `prevNodePath`
is captured at line 100; lines 106-108 set `NODE_PATH` for the collector run
(its influence on the collector is absorbed into `env.collect`); the
`finally` block of lines 141-144 assigns `prevNodePath` back to
`process.env.NODE_PATH` on every exit. -/
def makeTmpZipBuild (env : CollectEnv) (nodePath0 : Option String) (startPath : String)
    (opts : CollectOpts) : MakeZipOut :=
  let prevNodePath := nodePath0
  match env.collect startPath with
  | none =>
    { result := Except.error PipeErr.collectFailed, cache := opts.cache,
      nodePath := envAssign prevNodePath, collectorCalled := true, archive := none }
  | some t0 =>
    match stubStep env startPath t0 with
    | none =>
      { result := Except.error PipeErr.writeStubFailed, cache := opts.cache,
        nodePath := envAssign prevNodePath, collectorCalled := true, archive := none }
    | some t1 =>
      if env.zipOk then
        { result := Except.ok env.tmpZipName,
          cache := opts.cache.map (fun c => cacheSet c startPath env.tmpZipName),
          nodePath := envAssign prevNodePath, collectorCalled := true,
          archive := some (zipBytes (normalizeTree t1)) }
      else
        { result := Except.error PipeErr.zipFailed, cache := opts.cache,
          nodePath := envAssign prevNodePath, collectorCalled := true, archive := none }

/-- Embedding of `_makeTmpZipFile(startPath, options)` (lines 88-145) as a
function of the ambient environment and the `NODE_PATH` value before the
call.  Lines 91-94: a cache that has the entry path returns the memoized zip
path at once. -/
def makeTmpZipFile (env : CollectEnv) (nodePath0 : Option String) (startPath : String)
    (opts : CollectOpts) : MakeZipOut :=
  match opts.cache with
  | some c =>
    if cacheHas c startPath then
      { result := Except.ok (cacheGet c startPath), cache := some c,
        nodePath := nodePath0, collectorCalled := false, archive := none }
    else makeTmpZipBuild env nodePath0 startPath opts
  | none => makeTmpZipBuild env nodePath0 startPath opts

/-! ### The S3 sink `packageZipS3` (lines 176-226) -/

/-- JS `v || d` for an optional string option: `undefined` and the empty
string both fall back to the default. -/
def jsOr (v : Option String) (d : String) : String :=
  match v with
  | some s => if s = "" then d else s
  | none => d

/-- Character of one hex digit. -/
def hexChar (n : Nat) : Char :=
  if n < 10 then Char.ofNat (48 + n) else Char.ofNat (87 + n)

/-- Hex digits of a number (little-endian digit order; a fixed deterministic
encoding suffices for the model). -/
def hexOfNat : Nat → List Char
  | 0 => []
  | n + 1 => hexChar ((n + 1) % 16) :: hexOfNat ((n + 1) / 16)

/-- Serialization of archive content into numbers, with separators that keep
it injective enough to serve as a digest input. -/
def serializeZip (z : ZipData) : List Nat :=
  z.flatMap (fun e =>
    e.1.flatMap (fun s => s.data.map Char.toNat ++ [1114112]) ++ [1114113] ++
      (match e.2.1 with
       | none => [1114114]
       | some c => c.data.map Char.toNat ++ [1114115]) ++
      [if e.2.2 < 0 then 1 else 0, e.2.2.natAbs, 1114116])

/-- Stand-in for the md5 digest of the archive bytes (line 208): a
deterministic pure function of the archive content. -/
def digestOf (z : ZipData) : Nat :=
  (serializeZip z).foldl
    (fun h n => (h * 16777619 + n) % 340282366920938463463374607431768211456) 2166136261

/-- The hex rendering of the digest (`checksumHex`, line 209). -/
def md5HexOf (z : ZipData) : String := ⟨hexOfNat (digestOf z)⟩

/-- The base64 rendering of the digest (`checksumB64`, line 210): a second
deterministic rendering of the same digest. -/
def md5B64Of (z : ZipData) : String := ⟨hexOfNat (digestOf z)⟩ ++ "=="

/-- The key prefix of line 211:
`s3Prefix && !s3Prefix.endsWith("/") ? s3Prefix + "/" : (s3Prefix || "")`. -/
def normPfx (s3Pfx : String) : String :=
  if s3Pfx ≠ "" ∧ ¬ (s3Pfx.data.getLast? = some '/') then s3Pfx ++ "/" else s3Pfx

/-- First element of `listObjectsV2({MaxKeys: 1, Prefix: pfx})` (line 216):
S3 lists keys in ascending lexicographic order, so the first page holds the
least key having the given prefix, when one exists. -/
def listFirst (keys : List String) (pfx : String) : Option String :=
  (keys.filter (fun k => pfx.data.isPrefixOf k.data)).foldl
    (fun acc k =>
      match acc with
      | none => some k
      | some m => if k < m then some k else some m) none

/-- Errors surfaced by `packageZipS3`. -/
inductive S3Err where
  | permissionDenied (bucket : String)
  | headBucketFailed (code : String)
  | pipeline (e : PipeErr)
deriving DecidableEq

/-- Ambient behaviour of AWS for one `packageZipS3` call: the outcome of
`headBucket` (`none` is success, `some code` the error code), the keys
already present in the bucket, and the bytes `fse.readFile` returns for a zip
path. -/
structure S3Env where
  headBucket : Option String
  bucketKeys : List String
  readFile : String → ZipData

/-- The options of `IS3Opts` relevant to the model. -/
structure S3Opts where
  s3Bucket : Option String
  s3Pfx : Option String
  collectOpts : CollectOpts

/-- Observable outcome of one `packageZipS3` call: the returned location or
error, the uploads performed (key, body, attached `ContentMD5` checksum) and
whether `createBucket` ran. -/
structure S3Out where
  result : Except S3Err (String × String)
  uploads : List (String × ZipData × String)
  createdBucket : Bool

/-- Embedding of `packageZipS3(startPath, options)` (lines 176-226): bucket
check and creation (190-202), packaging (204-205), content-addressed key
derivation (207-212), existence check (215-217) and conditional upload
(218-224). -/
def packageZipS3 (env : CollectEnv) (nodePath0 : Option String) (senv : S3Env)
    (startPath : String) (opts : S3Opts) : S3Out :=
  let s3Bucket := jsOr opts.s3Bucket "aws-lambda-upload"
  let s3Pfx := jsOr opts.s3Pfx ""
  let bucketRes : Except S3Err Bool :=
    match senv.headBucket with
    | none => Except.ok false
    | some code =>
      if code = "Forbidden" then Except.error (S3Err.permissionDenied s3Bucket)
      else if code ≠ "NotFound" then Except.error (S3Err.headBucketFailed code)
      else Except.ok true
  match bucketRes with
  | Except.error e => { result := Except.error e, uploads := [], createdBucket := false }
  | Except.ok created =>
    let mz := makeTmpZipFile env nodePath0 startPath opts.collectOpts
    match mz.result with
    | Except.error e =>
      { result := Except.error (S3Err.pipeline e), uploads := [], createdBucket := created }
    | Except.ok tmpPath =>
      let zipData := senv.readFile tmpPath
      let key := normPfx s3Pfx ++ md5HexOf zipData ++ ".zip"
      if listFirst senv.bucketKeys key = some key then
        { result := Except.ok (s3Bucket, key), uploads := [], createdBucket := created }
      else
        { result := Except.ok (s3Bucket, key),
          uploads := [(key, zipData, md5B64Of zipData)], createdBucket := created }

/-! ### Template parsing (lines 254-263 and 286) -/

/-- Failures of `parseTemplate`. -/
inductive TemplateErr where
  | jsonUnparsable
  | yamlUnparsable
deriving DecidableEq

/-- Embedding of `parseTemplate(text, ext)` (lines 254-263), with the JSON
and YAML parsers as black-box collaborators returning `none` on a parse
error. -/
def parseTemplate {α : Type} (jsonParse yamlParse : String → Option α)
    (text : String) (ext : String) : Except TemplateErr α :=
  match jsonParse text with
  | some v => Except.ok v
  | none =>
    if ext = "json" then Except.error TemplateErr.jsonUnparsable
    else
      match yamlParse text with
      | some v => Except.ok v
      | none => Except.error TemplateErr.yamlUnparsable

/-- Line 286: `cloudformationPackage` parses the template with
`parseTemplate(templateText, path.extname(templatePath))`. -/
def cfnParseTemplate {α : Type} (jsonParse yamlParse : String → Option α)
    (templatePath text : String) : Except TemplateErr α :=
  parseTemplate jsonParse yamlParse text (pathExtname templatePath)


/-- Children list with the subtrees of the names satisfying `P` replaced by
their mtime-zeroed versions (proof device for the normalization lemma). -/
def mapIf (P : String → Bool) (ch : List (String × FsNode)) : List (String × FsNode) :=
  ch.map (fun e => (e.1, if P e.1 then mapMtimeZero e.2 else e.2))

/-- A clean path segment: nonempty, separator-free, and not one of the
special segments `"."` and `".."`. -/
def cleanSeg (s : List Char) : Prop :=
  s ≠ [] ∧ '/' ∉ s ∧ s ≠ ['.'] ∧ s ≠ ['.', '.']

instance (s : List Char) : Decidable (cleanSeg s) := by
  unfold cleanSeg
  infer_instance

/-- All segments of a list are clean. -/
def cleanSegs (l : List (List Char)) : Prop := ∀ s ∈ l, cleanSeg s

instance (l : List (List Char)) : Decidable (cleanSegs l) := by
  unfold cleanSegs
  infer_instance

/-- A dot-free segment: nonempty and free of separators and dots (the shape
of a file-name stem or extension). -/
def plainSeg (s : List Char) : Prop :=
  s ≠ [] ∧ '/' ∉ s ∧ '.' ∉ s

instance (s : List Char) : Decidable (plainSeg s) := by
  unfold plainSeg
  infer_instance

/-- The string spelled by a list of segments. -/
def segStr (l : List (List Char)) : String := ⟨joinSegs l⟩

/-! ### Generic list lemmas -/

theorem takeWhile_append_all {p : α → Bool} {xs : List α} (l : List α)
    (h : ∀ c ∈ xs, p c = true) : (xs ++ l).takeWhile p = xs ++ l.takeWhile p := by
  induction xs with
  | nil => simp
  | cons x t ih =>
    have hx := h x (by simp)
    simp only [List.cons_append, List.takeWhile_cons, hx]
    simp [ih (fun c hc => h c (by simp [hc]))]

theorem dropWhile_append_all {p : α → Bool} {xs : List α} (l : List α)
    (h : ∀ c ∈ xs, p c = true) : (xs ++ l).dropWhile p = l.dropWhile p := by
  induction xs with
  | nil => simp
  | cons x t ih =>
    have hx := h x (by simp)
    simp only [List.cons_append, List.dropWhile_cons, hx]
    simp [ih (fun c hc => h c (by simp [hc]))]

theorem pushAll_eq (xs st : List α) : pushAll xs st = xs.reverse ++ st := by
  induction xs generalizing st with
  | nil => simp [pushAll]
  | cons x t ih => simp [pushAll, ih]

theorem attach_flatMap_eq (l : List α) (f : α → List β) :
    l.attach.flatMap (fun e => f e.1) = l.flatMap f := by
  simp [List.flatMap_def, List.map_map]

theorem attach_map_eq (l : List α) (f : α → β) :
    l.attach.map (fun e => f e.1) = l.map f := by
  simp

theorem attach_all_eq (l : List α) (f : α → Bool) :
    l.attach.all (fun e => f e.1) = l.all f := by
  cases hb : l.all f with
  | true =>
    rw [List.all_eq_true] at hb ⊢
    exact fun e _ => hb e.1 e.2
  | false =>
    rw [List.all_eq_false] at hb ⊢
    obtain ⟨x, hx, hfx⟩ := hb
    exact ⟨⟨x, hx⟩, List.mem_attach l _, hfx⟩

theorem flatMap_congr_mem {l : List α} {f g : α → List β}
    (h : ∀ e ∈ l, f e = g e) : l.flatMap f = l.flatMap g := by
  induction l with
  | nil => simp
  | cons x t ih =>
    simp only [List.flatMap_cons, h x (by simp)]
    rw [ih (fun e he => h e (by simp [he]))]

theorem flatMap_perm_mem {l : List α} {f g : α → List β}
    (h : ∀ e ∈ l, (f e).Perm (g e)) : (l.flatMap f).Perm (l.flatMap g) := by
  induction l with
  | nil => simp
  | cons x t ih =>
    simp only [List.flatMap_cons]
    exact (h x (by simp)).append (ih (fun e he => h e (by simp [he])))

theorem commonPrefixLen_self_append (l m : List (List Char)) :
    commonPrefixLen l (l ++ m) = l.length := by
  induction l with
  | nil => cases m <;> simp [commonPrefixLen]
  | cons a as ih => simp [commonPrefixLen, ih]

/-! ### Segment and join lemmas -/

theorem joinSegs_cons_ne (s : List Char) (rest : List (List Char)) (h : rest ≠ []) :
    joinSegs (s :: rest) = s ++ '/' :: joinSegs rest := by
  cases rest with
  | nil => exact absurd rfl h
  | cons s2 r2 => rfl

theorem joinSegs_append_ne (as bs : List (List Char)) (ha : as ≠ []) (hb : bs ≠ []) :
    joinSegs (as ++ bs) = joinSegs as ++ '/' :: joinSegs bs := by
  induction as with
  | nil => exact absurd rfl ha
  | cons s r ih =>
    cases r with
    | nil =>
      cases bs with
      | nil => exact absurd rfl hb
      | cons b bs2 => simp [joinSegs]
    | cons s2 r2 =>
      have h1 : (s2 :: r2 : List (List Char)) ≠ [] := by simp
      calc joinSegs ((s :: s2 :: r2) ++ bs)
          = joinSegs (s :: ((s2 :: r2) ++ bs)) := by simp
        _ = s ++ '/' :: joinSegs ((s2 :: r2) ++ bs) := joinSegs_cons_ne _ _ (by simp)
        _ = s ++ '/' :: (joinSegs (s2 :: r2) ++ '/' :: joinSegs bs) := by rw [ih h1]
        _ = (s ++ '/' :: joinSegs (s2 :: r2)) ++ '/' :: joinSegs bs := by simp
        _ = joinSegs (s :: s2 :: r2) ++ '/' :: joinSegs bs := by rw [joinSegs_cons_ne _ _ h1]

theorem joinSegs_ne_nil (l : List (List Char)) (h : l ≠ []) (h2 : ∀ s ∈ l, s ≠ []) :
    joinSegs l ≠ [] := by
  cases l with
  | nil => exact absurd rfl h
  | cons s r =>
    cases r with
    | nil => exact h2 s (by simp)
    | cons s2 r2 =>
      rw [joinSegs_cons_ne _ _ (by simp)]
      have := h2 s (by simp)
      cases s with
      | nil => exact absurd rfl this
      | cons c cs => simp

theorem head_joinSegs_ne_slash (l : List (List Char)) (hl : l ≠ [])
    (hs : ∀ s ∈ l, s ≠ [] ∧ '/' ∉ s) :
    ∃ c cs, joinSegs l = c :: cs ∧ c ≠ '/' := by
  cases l with
  | nil => exact absurd rfl hl
  | cons s r =>
    obtain ⟨hne, hns⟩ := hs s (by simp)
    cases s with
    | nil => exact absurd rfl hne
    | cons c cs =>
      have hc : c ≠ '/' := by
        intro hc; exact hns (by simp [hc])
      cases r with
      | nil => exact ⟨c, cs, rfl, hc⟩
      | cons s2 r2 =>
        rw [joinSegs_cons_ne _ _ (by simp)]
        exact ⟨c, cs ++ '/' :: joinSegs (s2 :: r2), by simp, hc⟩

theorem mem_joinSegs_of_all {p : Char → Prop} (l : List (List Char))
    (h : ∀ s ∈ l, ∀ c ∈ s, p c) (hsep : p '/') : ∀ c ∈ joinSegs l, p c := by
  induction l with
  | nil => intro c hc; cases hc
  | cons s r ih =>
    cases r with
    | nil => simpa [joinSegs] using h s (by simp)
    | cons s2 r2 =>
      rw [joinSegs_cons_ne _ _ (by simp)]
      intro c hc
      rcases List.mem_append.mp hc with hc | hc
      · exact h s (by simp) c hc
      · rcases List.mem_cons.mp hc with hc | hc
        · subst hc; exact hsep
        · exact ih (fun t ht => h t (by simp [ht])) c hc

theorem joinSegs_ne_dot (l : List (List Char)) (hl : l ≠ []) (hc : cleanSegs l) :
    joinSegs l ≠ ['.'] := by
  cases l with
  | nil => exact absurd rfl hl
  | cons s r =>
    obtain ⟨hne, _, hdot, _⟩ := hc s (by simp)
    cases r with
    | nil => simpa [joinSegs] using hdot
    | cons s2 r2 =>
      rw [joinSegs_cons_ne _ _ (by simp)]
      intro h
      cases s with
      | nil => exact hne rfl
      | cons c cs =>
        simp only [List.cons_append] at h
        rw [List.cons.injEq] at h
        exact absurd h.2 (by simp)

theorem segsAux_no_slash (s : List Char) (acc : List Char) (h : '/' ∉ s) :
    segsAux acc s = if s.reverse ++ acc = [] then [] else [(s.reverse ++ acc).reverse] := by
  induction s generalizing acc with
  | nil => simp [segsAux]
  | cons c cs ih =>
    have hc : c ≠ '/' := fun he => h (by simp [he])
    have hcs : '/' ∉ cs := fun he => h (by simp [he])
    rw [segsAux, if_neg hc, ih _ hcs]
    simp

theorem segsAux_step (s : List Char) (acc : List Char) (l : List Char) (h : '/' ∉ s) :
    segsAux acc (s ++ l) = segsAux (s.reverse ++ acc) l := by
  induction s generalizing acc with
  | nil => simp
  | cons c cs ih =>
    have hc : c ≠ '/' := fun he => h (by simp [he])
    have hcs : '/' ∉ cs := fun he => h (by simp [he])
    rw [List.cons_append, segsAux, if_neg hc, ih _ hcs]
    simp

theorem segsCh_joinSegs (l : List (List Char)) (h : ∀ s ∈ l, s ≠ [] ∧ '/' ∉ s) :
    segsCh (joinSegs l) = l := by
  induction l with
  | nil => simp [segsCh, segsAux]
  | cons s r ih =>
    obtain ⟨hne, hns⟩ := h s (by simp)
    cases r with
    | nil =>
      show segsAux [] (joinSegs [s]) = [s]
      rw [show joinSegs [s] = s from rfl, segsAux_no_slash _ _ hns]
      simp [hne]
    | cons s2 r2 =>
      show segsAux [] (joinSegs (s :: s2 :: r2)) = s :: s2 :: r2
      rw [joinSegs_cons_ne _ _ (by simp), segsAux_step _ _ _ hns, List.append_nil]
      have h1 : s.reverse ≠ [] := by simpa using hne
      rw [segsAux, if_pos rfl, if_neg h1, List.reverse_reverse]
      rw [show segsAux [] (joinSegs (s2 :: r2)) = segsCh (joinSegs (s2 :: r2)) from rfl]
      rw [ih (fun t ht => h t (by simp [ht]))]

theorem dropWhile_slash_of_noslash (b : List Char) (hb : b ≠ []) (hs : '/' ∉ b) (l : List Char) :
    (b.reverse ++ l).dropWhile (fun x => x = '/') = b.reverse ++ l := by
  cases hrev : b.reverse with
  | nil => exact absurd (List.reverse_eq_nil_iff.mp hrev) hb
  | cons x xs =>
    have hx : x ∈ b := by
      have : x ∈ b.reverse := by rw [hrev]; simp
      simpa using this
    have hxs : ¬(x = '/') := fun he => hs (he ▸ hx)
    simp [List.dropWhile_cons, hxs]

theorem dropWhile_nosl_all (b : List Char) (hs : '/' ∉ b) (l : List Char) :
    (b.reverse ++ '/' :: l).dropWhile (fun x => x ≠ '/') = '/' :: l := by
  rw [dropWhile_append_all]
  · simp [List.dropWhile_cons]
  · intro c hc
    have : c ∈ b := by simpa using hc
    simp only [ne_eq, decide_eq_true_eq]
    exact fun he => hs (he ▸ this)

theorem takeWhile_nosl_all (b : List Char) (hs : '/' ∉ b) (l : List Char) :
    (b.reverse ++ '/' :: l).takeWhile (fun x => x ≠ '/') = b.reverse := by
  rw [takeWhile_append_all]
  · simp [List.takeWhile_cons]
  · intro c hc
    have : c ∈ b := by simpa using hc
    simp only [ne_eq, decide_eq_true_eq]
    exact fun he => hs (he ▸ this)

theorem dropWhile_noslash_nil (b : List Char) (hs : '/' ∉ b) :
    b.reverse.dropWhile (fun x => x ≠ '/') = [] := by
  rw [List.dropWhile_eq_nil_iff]
  intro x hx
  have : x ∈ b := by simpa using hx
  simp only [ne_eq, decide_eq_true_eq]
  exact fun he => hs (he ▸ this)

theorem takeWhile_noslash_self (b : List Char) (hs : '/' ∉ b) :
    b.reverse.takeWhile (fun x => x ≠ '/') = b.reverse := by
  rw [List.takeWhile_eq_self_iff]
  intro x hx
  have : x ∈ b := by simpa using hx
  simp only [ne_eq, decide_eq_true_eq]
  exact fun he => hs (he ▸ this)

/-! ### Node dirname and parse on composite relative paths -/

theorem dirnameCh_single (b : List Char) (hb : b ≠ []) (hs : '/' ∉ b) :
    dirnameCh b = ['.'] := by
  cases b with
  | nil => exact absurd rfl hb
  | cons c cs =>
    have hc : ¬(c = '/') := fun he => hs (by simp [he])
    rw [dirnameCh, if_neg hc]
    have h1 := dropWhile_slash_of_noslash (c :: cs) (by simp) hs []
    simp only [List.append_nil] at h1
    simp only [h1, dropWhile_noslash_nil _ hs]

theorem dirnameCh_composite (ds : List (List Char)) (b : List Char)
    (hds : ds ≠ []) (hclean : ∀ s ∈ ds, s ≠ [] ∧ '/' ∉ s)
    (hb : b ≠ []) (hbs : '/' ∉ b) :
    dirnameCh (joinSegs ds ++ '/' :: b) = joinSegs ds := by
  obtain ⟨c0, t0, hj, hc0⟩ := head_joinSegs_ne_slash ds hds hclean
  have hl : joinSegs ds ++ '/' :: b = c0 :: (t0 ++ '/' :: b) := by rw [hj]; simp
  rw [hl, dirnameCh, if_neg (fun he => hc0 he)]
  have hrev : (c0 :: (t0 ++ '/' :: b)).reverse = b.reverse ++ '/' :: (joinSegs ds).reverse := by
    rw [hj]; simp
  simp only [hrev, dropWhile_slash_of_noslash b hb hbs _, dropWhile_nosl_all b hbs _]
  simp

theorem baseNameExt_plain (nm ex : List Char) (hnm : plainSeg nm) (hex : plainSeg ex) :
    baseNameExt (nm ++ '.' :: ex) = (nm, '.' :: ex) := by
  obtain ⟨hnne, _, hnd⟩ := hnm
  obtain ⟨hene, _, hed⟩ := hex
  have hrev : (nm ++ '.' :: ex).reverse = ex.reverse ++ '.' :: nm.reverse := by simp
  have htw : (ex.reverse ++ '.' :: nm.reverse).takeWhile (fun c => c ≠ '.') = ex.reverse := by
    rw [takeWhile_append_all]
    · simp [List.takeWhile_cons]
    · intro c hc
      have : c ∈ ex := by simpa using hc
      simp only [ne_eq, decide_eq_true_eq]
      exact fun he => hed (he ▸ this)
  have hdw : (ex.reverse ++ '.' :: nm.reverse).dropWhile (fun c => c ≠ '.') = '.' :: nm.reverse := by
    rw [dropWhile_append_all]
    · simp [List.dropWhile_cons]
    · intro c hc
      have : c ∈ ex := by simpa using hc
      simp only [ne_eq, decide_eq_true_eq]
      exact fun he => hed (he ▸ this)
  have hsplit : lastDotSplit (nm ++ '.' :: ex) = some (nm, '.' :: ex) := by
    rw [lastDotSplit]
    simp only [hrev, htw, hdw]
    simp
  rw [baseNameExt, hsplit]
  have hne2 : (nm ++ '.' :: ex) ≠ ['.', '.'] := by
    cases nm with
    | nil => exact absurd rfl hnne
    | cons c cs =>
      intro h
      simp only [List.cons_append, List.cons.injEq] at h
      exact hnd (by simp [h.1])
  simp [hnne, hne2]

theorem pathParse_composite (ds : List (List Char)) (b : List Char)
    (hds : ds ≠ []) (hclean : ∀ s ∈ ds, s ≠ [] ∧ '/' ∉ s)
    (hb : b ≠ []) (hbs : '/' ∉ b) :
    pathParse ⟨joinSegs ds ++ '/' :: b⟩ =
      ⟨"", ⟨joinSegs ds⟩, ⟨b⟩, ⟨(baseNameExt b).2⟩, ⟨(baseNameExt b).1⟩⟩ := by
  obtain ⟨c0, t0, hj, hc0⟩ := head_joinSegs_ne_slash ds hds hclean
  have hl : joinSegs ds ++ '/' :: b = c0 :: (t0 ++ '/' :: b) := by rw [hj]; simp
  have hrev : (c0 :: (t0 ++ '/' :: b)).reverse = b.reverse ++ '/' :: (joinSegs ds).reverse := by
    rw [hj]; simp
  rw [pathParse]
  simp only [hl]
  rw [if_neg (fun he => hc0 he)]
  simp only [hrev, dropWhile_slash_of_noslash b hb hbs _, takeWhile_nosl_all b hbs _,
    dropWhile_nosl_all b hbs _]
  simp

theorem segsAux_master (l : List (List Char)) (h : ∀ s ∈ l, s ≠ [] ∧ '/' ∉ s) (x : List Char) :
    segsAux [] (joinSegs l ++ '/' :: x) = l ++ segsAux [] x := by
  induction l with
  | nil => simp [joinSegs, segsAux]
  | cons s r ih =>
    obtain ⟨hne, hns⟩ := h s (by simp)
    have h1 : s.reverse ≠ [] := by simpa using hne
    cases r with
    | nil =>
      show segsAux [] (joinSegs [s] ++ '/' :: x) = [s] ++ segsAux [] x
      rw [show joinSegs [s] = s from rfl, segsAux_step _ _ _ hns, List.append_nil]
      rw [segsAux, if_pos rfl, if_neg h1, List.reverse_reverse]
      simp
    | cons s2 r2 =>
      have hj : joinSegs (s :: s2 :: r2) ++ '/' :: x
          = s ++ '/' :: (joinSegs (s2 :: r2) ++ '/' :: x) := by
        rw [joinSegs_cons_ne _ _ (by simp)]; simp
      rw [hj, segsAux_step _ _ _ hns, List.append_nil]
      rw [segsAux, if_pos rfl, if_neg h1, List.reverse_reverse]
      rw [ih (fun t ht => h t (by simp [ht]))]
      simp

theorem segsCh_slash_head (x : List Char) : segsCh ('/' :: x) = segsAux [] x := by
  rw [segsCh, segsAux, if_pos rfl]
  simp

theorem normSegsAux_clean (u : Bool) (l : List (List Char))
    (h : ∀ s ∈ l, s ≠ ['.'] ∧ s ≠ ['.', '.']) (acc : List (List Char)) :
    normSegsAux u acc l = acc.reverse ++ l := by
  induction l generalizing acc with
  | nil => simp [normSegsAux]
  | cons s r ih =>
    obtain ⟨h1, h2⟩ := h s (by simp)
    rw [normSegsAux.eq_def]
    simp only []
    rw [if_neg h1, if_neg h2, ih (fun t ht => h t (by simp [ht]))]
    simp

theorem getLast?_append_ne (as bs : List α) (h : bs ≠ []) :
    (as ++ bs).getLast? = bs.getLast? := by
  induction as with
  | nil => simp
  | cons a t ih =>
    rw [List.cons_append, List.getLast?_cons, ih]
    cases bs with
    | nil => exact absurd rfl h
    | cons b bt => simp [List.getLast?_cons]

theorem getLast_exists (l : List α) (h : l ≠ []) : ∃ x, l.getLast? = some x ∧ x ∈ l := by
  induction l with
  | nil => exact absurd rfl h
  | cons a t ih =>
    cases ht : t with
    | nil => exact ⟨a, by simp, by simp⟩
    | cons b tb =>
      obtain ⟨x, hx1, hx2⟩ := ih (by simp [ht])
      rw [ht] at hx1 hx2
      refine ⟨x, ?_, by simp [hx2]⟩
      rw [List.getLast?_cons, hx1]
      simp

theorem mkStr_eq_empty_iff (l : List Char) : (⟨l⟩ : String) = "" ↔ l = [] :=
  ⟨fun h => congrArg String.data h, fun h => congrArg String.mk h⟩

theorem normalizeCh_rel (ds : List (List Char)) (nm : List Char)
    (hds : ds ≠ []) (hclean : cleanSegs ds) (hnm : cleanSeg nm) :
    normalizeCh (joinSegs ds ++ '/' :: nm) = joinSegs (ds ++ [nm]) := by
  have hplain : ∀ s ∈ ds, s ≠ [] ∧ '/' ∉ s :=
    fun s hs => ⟨(hclean s hs).1, (hclean s hs).2.1⟩
  obtain ⟨c0, t0, hj, hc0⟩ := head_joinSegs_ne_slash ds hds hplain
  have hl : joinSegs ds ++ '/' :: nm = c0 :: (t0 ++ '/' :: nm) := by rw [hj]; simp
  obtain ⟨x, hx1, hx2⟩ := getLast_exists nm hnm.1
  have hxs : x ≠ '/' := fun he => hnm.2.1 (he ▸ hx2)
  have htrail : (c0 :: (t0 ++ '/' :: nm)).getLast? = some x := by
    rw [← hl, getLast?_append_ne _ ('/' :: nm) (by simp),
      show ('/' :: nm : List Char) = ['/'] ++ nm by simp,
      getLast?_append_ne _ nm hnm.1, hx1]
  have hsegs : segsCh (c0 :: (t0 ++ '/' :: nm)) = ds ++ [nm] := by
    rw [← hl]
    show segsAux [] (joinSegs ds ++ '/' :: nm) = ds ++ [nm]
    rw [segsAux_master ds hplain nm, segsAux_no_slash nm [] hnm.2.1]
    simp [hnm.1]
  have hnorm : normSegsAux true [] (ds ++ [nm]) = ds ++ [nm] := by
    have := normSegsAux_clean true (ds ++ [nm]) (fun s hs => by
      rcases List.mem_append.mp hs with hs | hs
      · exact ⟨(hclean s hs).2.2.1, (hclean s hs).2.2.2⟩
      · simp only [List.mem_singleton] at hs
        subst hs
        exact ⟨hnm.2.2.1, hnm.2.2.2⟩) []
    simpa using this
  rw [hl, normalizeCh]
  simp only [hsegs]
  have hd1 : decide (c0 = '/') = false := by simp [hc0]
  have hd2 : decide ((c0 :: (t0 ++ '/' :: nm)).getLast? = some '/') = false := by
    simp [htrail, hxs]
  simp only [hd1, hd2, Bool.not_false, hnorm]
  cases hcons : ds ++ [nm] with
  | nil => simp at hcons
  | cons y ys =>
    simp only [hcons]
    rw [if_neg hc0, if_neg (fun h => hxs (by simpa [htrail] using h))]
    simp [← hcons]

theorem normalizeCh_abs (ts : List (List Char)) (fname : List Char)
    (hclean : cleanSegs ts) (hf : cleanSeg fname) :
    normalizeCh ('/' :: (joinSegs ts ++ '/' :: fname)) = '/' :: joinSegs (ts ++ [fname]) := by
  have hplain : ∀ s ∈ ts, s ≠ [] ∧ '/' ∉ s :=
    fun s hs => ⟨(hclean s hs).1, (hclean s hs).2.1⟩
  obtain ⟨x, hx1, hx2⟩ := getLast_exists fname hf.1
  have hxs : x ≠ '/' := fun he => hf.2.1 (he ▸ hx2)
  have htrail : ('/' :: (joinSegs ts ++ '/' :: fname)).getLast? = some x := by
    rw [show ('/' :: (joinSegs ts ++ '/' :: fname) : List Char)
        = ('/' :: joinSegs ts ++ ['/']) ++ fname by simp,
      getLast?_append_ne _ fname hf.1, hx1]
  have hsegs : segsCh ('/' :: (joinSegs ts ++ '/' :: fname)) = ts ++ [fname] := by
    rw [segsCh_slash_head, segsAux_master ts hplain fname, segsAux_no_slash fname [] hf.2.1]
    simp [hf.1]
  have hnorm : normSegsAux false [] (ts ++ [fname]) = ts ++ [fname] := by
    have := normSegsAux_clean false (ts ++ [fname]) (fun s hs => by
      rcases List.mem_append.mp hs with hs | hs
      · exact ⟨(hclean s hs).2.2.1, (hclean s hs).2.2.2⟩
      · simp only [List.mem_singleton] at hs
        subst hs
        exact ⟨hf.2.2.1, hf.2.2.2⟩) []
    simpa using this
  rw [normalizeCh]
  simp only [hsegs]
  have hb1 : (!decide True) = false := by simp
  simp only [hb1, hnorm, if_true]
  cases hcons : ts ++ [fname] with
  | nil => simp at hcons
  | cons y ys =>
    simp only [hcons]
    rw [if_neg (fun h => hxs (by simpa [htrail] using h))]
    simp [← hcons]

theorem pathJoin_abs (ts : List (List Char)) (fname : List Char)
    (hclean : cleanSegs ts) (hf : cleanSeg fname) :
    pathJoin ⟨'/' :: joinSegs ts⟩ ⟨fname⟩ = ⟨'/' :: joinSegs (ts ++ [fname])⟩ := by
  have ha : (⟨'/' :: joinSegs ts⟩ : String) ≠ "" := by
    rw [Ne, mkStr_eq_empty_iff]
    simp
  have hb : (⟨fname⟩ : String) ≠ "" := by
    rw [Ne, mkStr_eq_empty_iff]
    exact hf.1
  rw [pathJoin, if_neg ha, if_neg hb]
  show (⟨normalizeCh ('/' :: joinSegs ts ++ '/' :: fname)⟩ : String) = _
  rw [show ('/' :: joinSegs ts ++ '/' :: fname : List Char)
      = '/' :: (joinSegs ts ++ '/' :: fname) by simp]
  rw [normalizeCh_abs ts fname hclean hf]

theorem pathJoin_rel (ds : List (List Char)) (nm : List Char)
    (hds : ds ≠ []) (hclean : cleanSegs ds) (hnm : cleanSeg nm) :
    pathJoin (segStr ds) ⟨nm⟩ = segStr (ds ++ [nm]) := by
  have ha : (⟨joinSegs ds⟩ : String) ≠ "" := by
    rw [Ne, mkStr_eq_empty_iff]
    exact joinSegs_ne_nil ds hds (fun s hs => (hclean s hs).1)
  have hb : (⟨nm⟩ : String) ≠ "" := by
    rw [Ne, mkStr_eq_empty_iff]
    exact hnm.1
  rw [show segStr ds = (⟨joinSegs ds⟩ : String) from rfl, pathJoin, if_neg ha, if_neg hb]
  show (⟨normalizeCh (joinSegs ds ++ '/' :: nm)⟩ : String) = _
  rw [normalizeCh_rel ds nm hds hclean hnm]
  rfl

theorem resolveSegs_empty (cs : List (List Char)) (hclean : cleanSegs cs) :
    resolveSegs ⟨'/' :: joinSegs cs⟩ "" = cs := by
  have hplain : ∀ s ∈ cs, s ≠ [] ∧ '/' ∉ s :=
    fun s hs => ⟨(hclean s hs).1, (hclean s hs).2.1⟩
  show normSegsAux false [] (segsCh (('/' :: joinSegs cs) ++ '/' :: [])) = cs
  rw [show (('/' :: joinSegs cs) ++ '/' :: [] : List Char)
      = '/' :: (joinSegs cs ++ '/' :: []) by simp]
  rw [segsCh_slash_head, segsAux_master cs hplain []]
  rw [show segsAux [] [] = ([] : List (List Char)) from rfl, List.append_nil]
  have := normSegsAux_clean false cs
    (fun s hs => ⟨(hclean s hs).2.2.1, (hclean s hs).2.2.2⟩) []
  simpa using this

theorem resolveSegs_rel (cs : List (List Char)) (l : List (List Char))
    (hclean : cleanSegs cs) (hl : l ≠ []) (hlc : cleanSegs l) :
    resolveSegs ⟨'/' :: joinSegs cs⟩ (segStr l) = cs ++ l := by
  have hplainc : ∀ s ∈ cs, s ≠ [] ∧ '/' ∉ s :=
    fun s hs => ⟨(hclean s hs).1, (hclean s hs).2.1⟩
  have hplainl : ∀ s ∈ l, s ≠ [] ∧ '/' ∉ s :=
    fun s hs => ⟨(hlc s hs).1, (hlc s hs).2.1⟩
  obtain ⟨c0, t0, hj, hc0⟩ := head_joinSegs_ne_slash l hl hplainl
  rw [resolveSegs.eq_def]
  split
  · rename_i heq
    rw [show (segStr l).data = joinSegs l from rfl, hj] at heq
    have h1 : c0 = '/' := by
      have := (List.cons.injEq _ _ _ _).mp heq
      exact this.1
    exact absurd h1 hc0
  · show normSegsAux false [] (segsCh ('/' :: (joinSegs cs ++ '/' :: joinSegs l))) = cs ++ l
    rw [segsCh_slash_head, segsAux_master cs hplainc (joinSegs l)]
    rw [show segsAux [] (joinSegs l) = segsCh (joinSegs l) from rfl, segsCh_joinSegs l hplainl]
    have := normSegsAux_clean false (cs ++ l) (fun s hs => by
      rcases List.mem_append.mp hs with hs | hs
      · exact ⟨(hclean s hs).2.2.1, (hclean s hs).2.2.2⟩
      · exact ⟨(hlc s hs).2.2.1, (hlc s hs).2.2.2⟩) []
    simpa using this

theorem pathRelative_root (cs : List (List Char)) (l : List (List Char))
    (hclean : cleanSegs cs) (hl : l ≠ []) (hlc : cleanSegs l) :
    pathRelative ⟨'/' :: joinSegs cs⟩ "" (segStr l) = segStr l := by
  rw [pathRelative]
  simp only [resolveSegs_empty cs hclean, resolveSegs_rel cs l hclean hl hlc,
    commonPrefixLen_self_append]
  rw [segStr]
  simp [List.drop_left]

/-! ### Extension facts for template parsing -/

theorem baseNameExt_snd_shape (b : List Char) :
    (baseNameExt b).2 = [] ∨ ∃ r, (baseNameExt b).2 = '.' :: r := by
  rw [baseNameExt]
  cases h : lastDotSplit b with
  | none => simp
  | some pe =>
    obtain ⟨bef, ex⟩ := pe
    have hex : ∃ r, ex = '.' :: r := by
      simp only [lastDotSplit] at h
      rcases hdw : (b.reverse.dropWhile (fun c => c ≠ '.')) with _ | ⟨d, rest⟩
      · rw [hdw] at h
        simp at h
      · rw [hdw] at h
        simp only [Option.some.injEq, Prod.mk.injEq] at h
        exact ⟨_, h.2.symm⟩
    obtain ⟨r, hr⟩ := hex
    by_cases h1 : bef = []
    · simp [h1]
    · by_cases h2 : b = ['.', '.']
      · simp [h1, h2]
      · right
        exact ⟨r, by simp [h1, h2, hr]⟩

theorem pathExtname_ne_json (s : String) : pathExtname s ≠ "json" := by
  rw [pathExtname]
  rcases baseNameExt_snd_shape
      (((s.data.reverse.dropWhile (fun x => x = '/')).takeWhile (fun x => x ≠ '/')).reverse)
    with h | ⟨r, h⟩
  · simp only [h]
    intro he
    have := congrArg String.data he
    simp at this
  · simp only [h]
    intro he
    have hd := congrArg String.data he
    have : ('.' : Char) = 'j' := by
      have h2 : ('.' :: r : List Char) = ['j', 's', 'o', 'n'] := hd
      exact (List.cons.injEq _ _ _ _).mp h2 |>.1
    simp at this

/-- C10: for every template path and text, `parseTemplate` returns the JSON
parse result when the text parses as JSON; when JSON parsing fails, YAML
parsing is attempted before failing, for every extension value actually
passed by `cloudformationPackage` (`path.extname` output, which includes a
leading dot, so never equals the exact string `"json"` that triggers the
JSON-only early failure); an error is raised only when both parses fail. -/
theorem parseTemplate_yaml_fallback {α : Type} (jsonParse yamlParse : String → Option α)
    (templatePath text : String) :
    (∀ v, jsonParse text = some v →
        cfnParseTemplate jsonParse yamlParse templatePath text = Except.ok v) ∧
    (jsonParse text = none → ∀ w, yamlParse text = some w →
        cfnParseTemplate jsonParse yamlParse templatePath text = Except.ok w) ∧
    (jsonParse text = none → yamlParse text = none →
        cfnParseTemplate jsonParse yamlParse templatePath text
          = Except.error TemplateErr.yamlUnparsable) ∧
    (∀ ext2, parseTemplate jsonParse yamlParse text ext2 = Except.error TemplateErr.jsonUnparsable
        → ext2 = "json") ∧
    pathExtname templatePath ≠ "json" := by
  refine ⟨?_, ?_, ?_, ?_, pathExtname_ne_json _⟩
  · intro v hv
    simp [cfnParseTemplate, parseTemplate, hv]
  · intro hj w hw
    simp [cfnParseTemplate, parseTemplate, hj, hw, if_neg (pathExtname_ne_json templatePath)]
  · intro hj hy
    simp [cfnParseTemplate, parseTemplate, hj, hy, if_neg (pathExtname_ne_json templatePath)]
  · intro ext2 h
    by_contra hne
    rw [parseTemplate] at h
    cases hj : jsonParse text with
    | some v => rw [hj] at h; simp at h
    | none =>
      rw [hj, if_neg hne] at h
      cases hy : yamlParse text with
      | some w => rw [hy] at h; simp at h
      | none => rw [hy] at h; simp at h

/-- Witness for C10 at a concrete template: a YAML-only text with a `.yml`
template path parses via the YAML fallback. -/
theorem parseTemplate_yaml_fallback_witness :
    (fun s => if s = "J" then some 1 else none : String → Option Nat) "Y" = none ∧
    (fun s => if s = "Y" then some 2 else none : String → Option Nat) "Y" = some 2 ∧
    cfnParseTemplate (fun s => if s = "J" then some 1 else none)
      (fun s => if s = "Y" then some 2 else none) "template.yml" "Y" = Except.ok 2 := by
  refine ⟨by decide, by decide, ?_⟩
  exact (parseTemplate_yaml_fallback (fun s => if s = "J" then some 1 else none)
    (fun s => if s = "Y" then some 2 else none) "template.yml" "Y").2.1 (by decide) 2 (by decide)

theorem mk_append (a b : List Char) : (⟨a⟩ : String) ++ (⟨b⟩ : String) = ⟨a ++ b⟩ := rfl

/-- C2: for every relative entry path `p` built from clean directory segments
and a base name with an extension: when the directory component of `p` is
`"."` (no directory part), no stub is synthesized; otherwise the stub gate
fires, the single top-level stub file is named with the base name of `p` with
its extension normalized to `.js`, its path sits directly under the staging
root, and its contents require the original nested module by a path that,
resolved from the archive root, reaches the nested staged file. -/
theorem stub_synthesis_spec (ds : List (List Char)) (nm ex : List Char)
    (cs ts : List (List Char))
    (hds : cleanSegs ds) (hnm : plainSeg nm) (hex : plainSeg ex)
    (hcs : cleanSegs cs) (hts : cleanSegs ts) (htsne : ts ≠ [])
    (p : String) (hp : p = segStr (ds ++ [nm ++ '.' :: ex]))
    (cwd : String) (hcwd : cwd = ⟨'/' :: joinSegs cs⟩)
    (stageDir : String) (hstage : stageDir = ⟨'/' :: joinSegs ts⟩) :
    (ds = [] → stubDecision p = false) ∧
    (ds ≠ [] →
      stubDecision p = true ∧
      stubNameOf p = (⟨nm⟩ : String) ++ ".js" ∧
      stubPathOf stageDir p = stageDir ++ "/" ++ (⟨nm⟩ : String) ++ ".js" ∧
      requirePathOf cwd p = segStr (ds ++ [nm]) ∧
      stubContentsOf cwd p =
        "module.exports = require(\"./" ++ segStr (ds ++ [nm]) ++ "\");\n" ∧
      (∀ staged : List String,
        segStr (ds ++ [nm]) ++ ".js" ∈ staged → segStr (ds ++ [nm]) ∉ staged →
        resolveRequire staged (requirePathOf cwd p) = some (segStr (ds ++ [nm]) ++ ".js"))) := by
  have hbne : nm ++ '.' :: ex ≠ [] := by
    cases nm with
    | nil => exact absurd rfl hnm.1
    | cons c t => simp
  have hbs : '/' ∉ nm ++ '.' :: ex := by
    intro hmem
    rcases List.mem_append.mp hmem with h | h
    · exact hnm.2.1 h
    · rcases List.mem_cons.mp h with h | h
      · exact absurd h.symm (by decide)
      · exact hex.2.1 h
  constructor
  · intro hnil
    subst hnil hp
    show (pathDirname (segStr ([] ++ [nm ++ '.' :: ex])) != ".") = false
    rw [show segStr ([] ++ [nm ++ '.' :: ex]) = ⟨nm ++ '.' :: ex⟩ from rfl]
    rw [show pathDirname ⟨nm ++ '.' :: ex⟩ = ⟨dirnameCh (nm ++ '.' :: ex)⟩ from rfl]
    rw [dirnameCh_single _ hbne hbs]
    simp
  · intro hdsne
    have hplainds : ∀ s ∈ ds, s ≠ [] ∧ '/' ∉ s :=
      fun s hs => ⟨(hds s hs).1, (hds s hs).2.1⟩
    have hsplit : p = ⟨joinSegs ds ++ '/' :: (nm ++ '.' :: ex)⟩ := by
      rw [hp, segStr, joinSegs_append_ne ds [nm ++ '.' :: ex] hdsne (by simp)]
      rfl
    have hparse : pathParse p =
        ⟨"", ⟨joinSegs ds⟩, ⟨nm ++ '.' :: ex⟩, ⟨'.' :: ex⟩, ⟨nm⟩⟩ := by
      rw [hsplit, pathParse_composite ds _ hdsne hplainds hbne hbs,
        baseNameExt_plain nm ex hnm hex]
    have hdec : stubDecision p = true := by
      show (pathDirname p != ".") = true
      rw [hsplit, show pathDirname ⟨joinSegs ds ++ '/' :: (nm ++ '.' :: ex)⟩
          = ⟨dirnameCh (joinSegs ds ++ '/' :: (nm ++ '.' :: ex))⟩ from rfl]
      rw [dirnameCh_composite ds _ hdsne hplainds hbne hbs]
      rw [bne_iff_ne]
      intro h
      exact joinSegs_ne_dot ds hdsne hds (congrArg String.data h)
    have hname : stubNameOf p = (⟨nm⟩ : String) ++ ".js" := by
      rw [stubNameOf, hparse]
    have hnmclean : cleanSeg nm := by
      refine ⟨hnm.1, hnm.2.1, ?_, ?_⟩
      · intro h
        exact hnm.2.2 (h ▸ (by simp : '.' ∈ (['.'] : List Char)))
      · intro h
        exact hnm.2.2 (h ▸ (by simp : '.' ∈ (['.', '.'] : List Char)))
    have hfclean : cleanSeg (nm ++ ['.', 'j', 's']) := by
      refine ⟨by simp, ?_, ?_, ?_⟩
      · intro hmem
        rcases List.mem_append.mp hmem with h | h
        · exact hnm.2.1 h
        · simp at h
      · intro h
        have := congrArg List.length h
        simp at this
      · intro h
        have := congrArg List.length h
        simp at this
    have hpath : stubPathOf stageDir p = stageDir ++ "/" ++ (⟨nm⟩ : String) ++ ".js" := by
      rw [stubPathOf, hname, hstage]
      rw [show ((⟨nm⟩ : String) ++ ".js") = (⟨nm ++ ['.', 'j', 's']⟩ : String) from rfl]
      rw [pathJoin_abs ts _ hts hfclean]
      rw [show ("/" : String) = (⟨['/']⟩ : String) from rfl,
        show (".js" : String) = (⟨['.', 'j', 's']⟩ : String) from rfl,
        mk_append, mk_append, mk_append]
      apply congrArg String.mk
      rw [joinSegs_append_ne ts [nm ++ ['.', 'j', 's']] htsne (by simp)]
      simp [joinSegs]
    have hdsnm : cleanSegs (ds ++ [nm]) := by
      intro s hs
      rcases List.mem_append.mp hs with h | h
      · exact hds s h
      · simp only [List.mem_singleton] at h
        subst h
        exact hnmclean
    have hreq : requirePathOf cwd p = segStr (ds ++ [nm]) := by
      rw [requirePathOf, hparse]
      show pathRelative cwd "" (pathJoin ⟨joinSegs ds⟩ ⟨nm⟩) = _
      rw [show (⟨joinSegs ds⟩ : String) = segStr ds from rfl,
        pathJoin_rel ds nm hdsne hds hnmclean, hcwd,
        pathRelative_root cs (ds ++ [nm]) hcs (by simp) hdsnm]
    refine ⟨hdec, hname, hpath, hreq, ?_, ?_⟩
    · rw [stubContentsOf, hreq]
    · intro staged h1 h2
      rw [hreq, resolveRequire, if_neg h2, if_pos h1]

/-- Witness for C2 at the concrete entry `lib/bar.ts` with working directory
`/work` and staging directory `/tmp/st`. -/
theorem stub_synthesis_spec_witness :
    stubDecision "lib/bar.ts" = true ∧
    stubNameOf "lib/bar.ts" = "bar" ++ ".js" ∧
    stubPathOf "/tmp/st" "lib/bar.ts" = "/tmp/st" ++ "/" ++ "bar" ++ ".js" ∧
    requirePathOf "/work" "lib/bar.ts" = "lib/bar" ∧
    resolveRequire ["lib/bar.js"] (requirePathOf "/work" "lib/bar.ts")
      = some ("lib/bar" ++ ".js") := by
  have h := (stub_synthesis_spec [['l', 'i', 'b']] ['b', 'a', 'r'] ['t', 's']
      [['w', 'o', 'r', 'k']] [['t', 'm', 'p'], ['s', 't']]
      (by decide) (by decide) (by decide) (by decide) (by decide) (by decide)
      "lib/bar.ts" (by decide) "/work" (by decide) "/tmp/st" (by decide)).2 (by decide)
  obtain ⟨h1, h2, h3, h4, h5, h6⟩ := h
  exact ⟨h1, h2, h3, h4, h6 ["lib/bar.js"] (by decide) (by decide)⟩

/-! ### The walk is the lexicographic preorder -/

theorem lexPre_file (r : List String) (c : String) (a m : Int) :
    lexPre r (FsNode.file c a m) = [(r, FsNode.file c a m)] := by
  simp [lexPre]

theorem lexPre_dir (r : List String) (ch : List (String × FsNode)) (a m : Int) :
    lexPre r (FsNode.dir ch a m) =
      (r, FsNode.dir ch a m) :: (sortCh ch).flatMap (fun e => lexPre (r ++ [e.1]) e.2) := by
  rw [lexPre]
  rw [attach_flatMap_eq (sortCh ch) (fun e => lexPre (r ++ [e.1]) e.2)]

theorem entriesList_file (r : List String) (c : String) (a m : Int) :
    entriesList r (FsNode.file c a m) = [(r, FsNode.file c a m)] := by
  simp [entriesList]

theorem entriesList_dir (r : List String) (ch : List (String × FsNode)) (a m : Int) :
    entriesList r (FsNode.dir ch a m) =
      (r, FsNode.dir ch a m) :: ch.flatMap (fun e => entriesList (r ++ [e.1]) e.2) := by
  rw [entriesList]
  rw [attach_flatMap_eq ch (fun e => entriesList (r ++ [e.1]) e.2)]

theorem fsWalkLoop_eq_flatMap (todo : List (List String × FsNode)) :
    fsWalkLoop todo = todo.flatMap (fun e => lexPre e.1 e.2) := by
  induction todo using fsWalkLoop.induct with
  | case1 => simp [fsWalkLoop]
  | case2 p c a m rest ih =>
    rw [fsWalkLoop, ih]
    simp [lexPre_file]
  | case3 p ch a m rest ih =>
    rw [fsWalkLoop, ih, pushAll_eq]
    rw [show ((sortCh ch).reverse.map (fun e => (p ++ [e.1], e.2))).reverse
        = (sortCh ch).map (fun e => (p ++ [e.1], e.2)) by simp]
    rw [List.flatMap_append, List.flatMap_map]
    simp [lexPre_dir]

theorem fsWalk_eq_lexPre (root : List String) (t : FsNode) :
    fsWalk root t = lexPre root t := by
  rw [fsWalk, fsWalkLoop_eq_flatMap]
  simp

theorem lexPre_perm_entriesList (r : List String) (t : FsNode) :
    (lexPre r t).Perm (entriesList r t) := by
  induction r, t using lexPre.induct with
  | case1 r c a m => rw [lexPre_file, entriesList_file]
  | case2 r ch a m ih =>
    rw [lexPre_dir, entriesList_dir]
    refine List.Perm.cons _ ?_
    have h1 : ((sortCh ch).flatMap (fun e => lexPre (r ++ [e.1]) e.2)).Perm
        (ch.flatMap (fun e => lexPre (r ++ [e.1]) e.2)) := by
      rw [List.flatMap_def, List.flatMap_def]
      exact ((List.perm_insertionSort (fun a b => a.1 ≤ b.1) ch).map _).flatten
    refine h1.trans ?_
    refine flatMap_perm_mem (fun e he => ?_)
    have hm : e ∈ sortCh ch := by
      rw [sortCh, List.mem_insertionSort]
      exact he
    exact ih ⟨e, hm⟩

/-- C5: `fsWalk` visits each entry of the tree exactly once, every directory
before its children and the children of each directory in ascending
lexicographic name order: its visit sequence is exactly the lexicographic
preorder of the tree, and it is a permutation of the structural entry
enumeration. -/
theorem fsWalk_is_lex_preorder (root : List String) (t : FsNode) :
    fsWalk root t = lexPre root t ∧ (fsWalk root t).Perm (entriesList root t) :=
  ⟨fsWalk_eq_lexPre root t,
    (fsWalk_eq_lexPre root t) ▸ lexPre_perm_entriesList root t⟩

/-! ### The normalization fold sets every mtime to zero -/

theorem lexPre_shift (s : List String) (t : FsNode) :
    ∀ r, lexPre (r ++ s) t = (lexPre s t).map (fun e => (r ++ e.1, e.2)) := by
  induction s, t using lexPre.induct with
  | case1 s c a m =>
    intro r
    rw [lexPre_file, lexPre_file]
    simp
  | case2 s ch a m ih =>
    intro r
    rw [lexPre_dir, lexPre_dir]
    simp only [List.map_cons, List.map_flatMap]
    refine congrArg₂ _ rfl ?_
    refine flatMap_congr_mem (fun e he => ?_)
    rw [show (r ++ s) ++ [e.1] = r ++ (s ++ [e.1]) by simp]
    exact ih ⟨e, he⟩ r

theorem updChWith_id (l : List (String × FsNode)) (n : String) :
    updChWith (fun c => c) l n = l := by
  induction l with
  | nil => rfl
  | cons e tl ih =>
    obtain ⟨n0, c0⟩ := e
    rw [updChWith]
    by_cases h : n0 = n
    · simp [h]
    · simp [h, ih]

theorem updChWith_comp (f g : FsNode → FsNode) (l : List (String × FsNode)) (n : String) :
    updChWith f (updChWith g l n) n = updChWith (fun c => f (g c)) l n := by
  induction l with
  | nil => rfl
  | cons e tl ih =>
    obtain ⟨n0, c0⟩ := e
    rw [updChWith]
    by_cases h : n0 = n
    · simp [h, updChWith]
    · simp only [if_neg h, updChWith, ih]

theorem updateAt_nil (t : FsNode) (f : FsNode → FsNode) : updateAt t [] f = f t := by
  simp [updateAt]

theorem updateAt_dir (ch : List (String × FsNode)) (a m : Int) (n : String)
    (p : List String) (f : FsNode → FsNode) :
    updateAt (FsNode.dir ch a m) (n :: p) f =
      FsNode.dir (updChWith (fun c => updateAt c p f) ch n) a m := by
  simp [updateAt]

theorem foldl_child_updates (L : List (List String × FsNode)) :
    ∀ (l : List (String × FsNode)) (a m : Int) (n : String),
    L.foldl (fun acc q => updateAt acc (n :: q.1) (setTimes (atimeOf q.2) 0)) (FsNode.dir l a m)
      = FsNode.dir
          (updChWith
            (fun c => L.foldl (fun acc q => updateAt acc q.1 (setTimes (atimeOf q.2) 0)) c) l n)
          a m := by
  induction L with
  | nil =>
    intro l a m n
    simp [updChWith_id]
  | cons q L2 ih =>
    intro l a m n
    rw [List.foldl_cons, updateAt_dir, ih, updChWith_comp]
    simp only [List.foldl_cons]

theorem mapIf_false (ch : List (String × FsNode)) : mapIf (fun _ => false) ch = ch := by
  simp [mapIf]

theorem mapIf_congr_names {P Q : String → Bool} (ch : List (String × FsNode))
    (h : ∀ e ∈ ch, P e.1 = Q e.1) : mapIf P ch = mapIf Q ch := by
  rw [mapIf, mapIf]
  apply List.map_congr_left
  intro e he
  rw [h e he]

theorem mapIf_all_true {P : String → Bool} (ch : List (String × FsNode))
    (h : ∀ e ∈ ch, P e.1 = true) :
    mapIf P ch = ch.map (fun e => (e.1, mapMtimeZero e.2)) := by
  rw [mapIf]
  apply List.map_congr_left
  intro e he
  rw [h e he]
  simp

theorem namesNodup_cons (n : String) (tl : List String) :
    namesNodup (n :: tl) = ((!(tl.any (fun m => m == n))) && namesNodup tl) := rfl

theorem namesNodup_iff (l : List String) : namesNodup l = true ↔ l.Nodup := by
  induction l with
  | nil => simp [namesNodup]
  | cons n tl ih =>
    rw [namesNodup_cons, List.nodup_cons]
    constructor
    · intro h
      rw [Bool.and_eq_true] at h
      refine ⟨?_, ih.mp h.2⟩
      intro hmem
      have : tl.any (fun m => m == n) = true := by
        rw [List.any_eq_true]
        exact ⟨n, hmem, by simp⟩
      rw [this] at h
      simp at h
    · intro ⟨h1, h2⟩
      rw [Bool.and_eq_true]
      refine ⟨?_, ih.mpr h2⟩
      rw [Bool.not_eq_true', List.any_eq_false]
      intro m hm he
      rw [beq_iff_eq] at he
      exact h1 (he ▸ hm)

theorem namesNodup_perm {l1 l2 : List String} (h : l1.Perm l2) :
    namesNodup l1 = namesNodup l2 := by
  cases h1 : namesNodup l1 with
  | true =>
    have := (namesNodup_iff l2).mpr (h.nodup_iff.mp ((namesNodup_iff l1).mp h1))
    rw [this]
  | false =>
    cases h2 : namesNodup l2 with
    | true =>
      have := (namesNodup_iff l1).mpr (h.nodup_iff.mpr ((namesNodup_iff l2).mp h2))
      rw [this] at h1
      exact h1.symm
    | false => rfl

theorem wfTree_file (c : String) (a m : Int) : wfTree (FsNode.file c a m) = true := by
  simp [wfTree]

theorem wfTree_dir (ch : List (String × FsNode)) (a m : Int) :
    wfTree (FsNode.dir ch a m)
      = (namesNodup (ch.map Prod.fst) && ch.all (fun e => wfTree e.2)) := by
  rw [wfTree]
  rw [attach_all_eq ch (fun e => wfTree e.2)]

theorem mapMtimeZero_file (c : String) (a m : Int) :
    mapMtimeZero (FsNode.file c a m) = FsNode.file c a 0 := by
  simp [mapMtimeZero]

theorem mapMtimeZero_dir (ch : List (String × FsNode)) (a m : Int) :
    mapMtimeZero (FsNode.dir ch a m)
      = FsNode.dir (ch.map (fun e => (e.1, mapMtimeZero e.2))) a 0 := by
  rw [mapMtimeZero]
  rw [attach_map_eq ch (fun e => (e.1, mapMtimeZero e.2))]

theorem stripTimes_file (c : String) (a m : Int) :
    stripTimes (FsNode.file c a m) = FsNode.file c 0 0 := by
  simp [stripTimes]

theorem stripTimes_dir (ch : List (String × FsNode)) (a m : Int) :
    stripTimes (FsNode.dir ch a m)
      = FsNode.dir (ch.map (fun e => (e.1, stripTimes e.2))) 0 0 := by
  rw [stripTimes]
  rw [attach_map_eq ch (fun e => (e.1, stripTimes e.2))]

theorem allMtimeZero_dir (ch : List (String × FsNode)) (a m : Int) :
    allMtimeZero (FsNode.dir ch a m)
      = ((m == 0) && ch.all (fun e => allMtimeZero e.2)) := by
  rw [allMtimeZero]
  rw [attach_all_eq ch (fun e => allMtimeZero e.2)]

theorem updChWith_mapIf {P : String → Bool} (ch : List (String × FsNode)) (n : String)
    (c : FsNode) (u : FsNode → FsNode)
    (hnd : namesNodup (ch.map Prod.fst) = true)
    (hmem : (n, c) ∈ ch) (hP : P n = false) (hu : u c = mapMtimeZero c) :
    updChWith u (mapIf P ch) n = mapIf (fun x => P x || x == n) ch := by
  induction ch with
  | nil => cases hmem
  | cons e tl ih =>
    obtain ⟨n0, c0⟩ := e
    have hnd' := hnd
    rw [List.map_cons, namesNodup_cons, Bool.and_eq_true] at hnd'
    obtain ⟨hnd1, hnd2⟩ := hnd'
    rw [Bool.not_eq_true', List.any_eq_false] at hnd1
    have hstep : mapIf P ((n0, c0) :: tl)
        = (n0, if P n0 then mapMtimeZero c0 else c0) :: mapIf P tl := rfl
    have hstep2 : ∀ Q : String → Bool, mapIf Q ((n0, c0) :: tl)
        = (n0, if Q n0 then mapMtimeZero c0 else c0) :: mapIf Q tl := fun _ => rfl
    by_cases h : n0 = n
    · subst h
      have hc : c0 = c := by
        rcases List.mem_cons.mp hmem with he | he
        · have := (Prod.mk.injEq _ _ _ _).mp he.symm
          exact this.2
        · exfalso
          have hx := hnd1 n0 (List.mem_map.mpr ⟨(n0, c), he, rfl⟩)
          simp at hx
      rw [hstep, hstep2, updChWith, if_pos rfl, hP]
      simp only [Bool.false_or, beq_self_eq_true, if_pos rfl,
        if_neg (by simp : ¬(false = true))]
      subst hc
      rw [hu]
      refine congrArg₂ _ rfl ?_
      apply mapIf_congr_names
      intro e2 he2
      have : (e2.1 == n0) = false := by
        have hx := hnd1 e2.1 (List.mem_map.mpr ⟨e2, he2, rfl⟩)
        cases hb : (e2.1 == n0) with
        | true => exact absurd hb hx
        | false => rfl
      rw [this]
      simp
    · have hmem2 : (n, c) ∈ tl := by
        rcases List.mem_cons.mp hmem with he | he
        · exact absurd ((Prod.mk.injEq _ _ _ _).mp he).1.symm h
        · exact he
      rw [hstep, hstep2, updChWith, if_neg h, ih hnd2 hmem2]
      have : (n0 == n) = false := beq_eq_false_iff_ne.mpr h
      rw [this]
      simp

theorem foldl_over_children (ch : List (String × FsNode)) (a : Int)
    (hnd : namesNodup (ch.map Prod.fst) = true) :
    ∀ (S : List (String × FsNode)) (P : String → Bool),
      (∀ e ∈ S, e ∈ ch ∧ P e.1 = false ∧
        (lexPre [] e.2).foldl (fun acc q => updateAt acc q.1 (setTimes (atimeOf q.2) 0)) e.2
          = mapMtimeZero e.2) →
      namesNodup (S.map Prod.fst) = true →
      ((S.flatMap (fun e => lexPre [e.1] e.2)).foldl
          (fun acc q => updateAt acc q.1 (setTimes (atimeOf q.2) 0))
          (FsNode.dir (mapIf P ch) a 0))
        = FsNode.dir (mapIf (fun x => P x || S.any (fun e => e.1 == x)) ch) a 0 := by
  intro S
  induction S with
  | nil =>
    intro P hS hSnd
    simp only [List.flatMap_nil, List.foldl_nil]
    have h0 : mapIf P ch
        = mapIf (fun x => P x || List.any ([] : List (String × FsNode)) (fun e => e.1 == x)) ch :=
      mapIf_congr_names ch (fun e he => by simp)
    rw [h0]
  | cons sc S2 ih =>
    intro P hS hSnd
    obtain ⟨n, c⟩ := sc
    obtain ⟨hmem, hPn, hfold⟩ := hS (n, c) (by simp)
    rw [List.flatMap_cons, List.foldl_append]
    have hshift : lexPre [n] c = (lexPre [] c).map (fun q => (n :: q.1, q.2)) := by
      have h1 := lexPre_shift [] c [n]
      simpa using h1
    rw [hshift, List.foldl_map, foldl_child_updates]
    rw [updChWith_mapIf ch n c _ hnd hmem hPn hfold]
    have hhd := hSnd
    rw [List.map_cons, namesNodup_cons, Bool.and_eq_true] at hhd
    obtain ⟨hh1, hh2⟩ := hhd
    rw [Bool.not_eq_true', List.any_eq_false] at hh1
    have hS2 : ∀ e ∈ S2, e ∈ ch ∧ (P e.1 || (e.1 == n)) = false ∧
        (lexPre [] e.2).foldl (fun acc q => updateAt acc q.1 (setTimes (atimeOf q.2) 0)) e.2
          = mapMtimeZero e.2 := by
      intro e he
      obtain ⟨h1, h2, h3⟩ := hS e (by simp [he])
      refine ⟨h1, ?_, h3⟩
      have hne : (e.1 == n) = false := by
        have hx := hh1 e.1 (List.mem_map.mpr ⟨e, he, rfl⟩)
        cases hb : (e.1 == n) with
        | true => exact absurd hb hx
        | false => rfl
      rw [h2, hne]
      rfl
    rw [ih _ hS2 hh2]
    congr 1
    apply mapIf_congr_names
    intro e he
    have hsymm : (e.1 == n) = (n == e.1) := by
      by_cases hx : e.1 = n
      · subst hx
        rfl
      · rw [beq_eq_false_iff_ne.mpr hx, beq_eq_false_iff_ne.mpr (fun hr => hx hr.symm)]
    rw [List.any_cons]
    simp [hsymm, Bool.or_assoc]

theorem normalizeFold_aux (r : List String) (t : FsNode) :
    wfTree t = true →
    (lexPre [] t).foldl (fun acc q => updateAt acc q.1 (setTimes (atimeOf q.2) 0)) t
      = mapMtimeZero t := by
  induction r, t using lexPre.induct with
  | case1 r c a m =>
    intro _
    rw [lexPre_file, List.foldl_cons, List.foldl_nil, updateAt_nil]
    rw [mapMtimeZero_file]
    rfl
  | case2 r ch a m ih =>
    intro hwf
    rw [wfTree_dir, Bool.and_eq_true] at hwf
    obtain ⟨hnd, hall⟩ := hwf
    rw [List.all_eq_true] at hall
    rw [lexPre_dir, List.foldl_cons, updateAt_nil]
    rw [show setTimes (atimeOf (FsNode.dir ch a m)) 0 (FsNode.dir ch a m)
        = FsNode.dir ch a 0 from rfl]
    have hsimp : ((sortCh ch).flatMap (fun e => lexPre ([] ++ [e.1]) e.2))
        = (sortCh ch).flatMap (fun e => lexPre [e.1] e.2) := by simp
    rw [show (FsNode.dir ch a 0) = FsNode.dir (mapIf (fun _ => false) ch) a 0 by
      rw [mapIf_false]]
    have hres := foldl_over_children ch a hnd (sortCh ch) (fun _ => false)
      (fun e he => by
        have hech : e ∈ ch := by
          rw [sortCh, List.mem_insertionSort] at he
          exact he
        exact ⟨hech, rfl, ih ⟨e, he⟩ (hall e hech)⟩)
      (by
        have hperm : ((sortCh ch).map Prod.fst).Perm (ch.map Prod.fst) :=
          (List.perm_insertionSort _ ch).map _
        rw [namesNodup_perm hperm]
        exact hnd)
    rw [hsimp, hres, mapMtimeZero_dir]
    congr 1
    apply mapIf_all_true
    intro e he
    simp only [Bool.false_or]
    rw [List.any_eq_true]
    refine ⟨e, ?_, by simp⟩
    rw [sortCh, List.mem_insertionSort]
    exact he

theorem normalizeTree_eq_mapMtimeZero (t : FsNode) (hwf : wfTree t = true) :
    normalizeTree t = mapMtimeZero t := by
  rw [normalizeTree, fsWalk_eq_lexPre]
  exact normalizeFold_aux [] t hwf

theorem allMtimeZero_mapMtimeZero (t : FsNode) : allMtimeZero (mapMtimeZero t) = true := by
  induction t using mapMtimeZero.induct with
  | case1 c a m =>
    rw [mapMtimeZero_file]
    simp [allMtimeZero]
  | case2 ch a m ih =>
    rw [mapMtimeZero_dir, allMtimeZero_dir]
    rw [Bool.and_eq_true, List.all_eq_true]
    refine ⟨by simp, ?_⟩
    intro e he
    obtain ⟨e0, he0, heq⟩ := List.mem_map.mp he
    subst heq
    exact ih ⟨e0, he0⟩

theorem stripTimes_mapMtimeZero (t : FsNode) : stripTimes (mapMtimeZero t) = stripTimes t := by
  induction t using mapMtimeZero.induct with
  | case1 c a m =>
    rw [mapMtimeZero_file, stripTimes_file, stripTimes_file]
  | case2 ch a m ih =>
    rw [mapMtimeZero_dir, stripTimes_dir, stripTimes_dir, List.map_map]
    congr 1
    apply List.map_congr_left
    intro e he
    simp only [Function.comp]
    rw [ih ⟨e, he⟩]

/-- C4: after the normalization step every file and directory under the
staging root has its modification timestamp set to the constant 0, and
normalization alters no file contents and no part of the directory structure
(the time-erased tree is unchanged). -/
theorem normalization_zeroes_mtimes (t : FsNode) (hwf : wfTree t = true) :
    allMtimeZero (normalizeTree t) = true ∧ stripTimes (normalizeTree t) = stripTimes t := by
  rw [normalizeTree_eq_mapMtimeZero t hwf]
  exact ⟨allMtimeZero_mapMtimeZero t, stripTimes_mapMtimeZero t⟩

/-- Witness for C4 at a concrete two-level staging tree with nonzero
mtimes. -/
theorem normalization_zeroes_mtimes_witness :
    wfTree (FsNode.dir [("a.js", FsNode.file "A" 5 7),
      ("lib", FsNode.dir [("b.js", FsNode.file "B" 2 9)] 4 6)] 3 8) = true ∧
    allMtimeZero (normalizeTree (FsNode.dir [("a.js", FsNode.file "A" 5 7),
      ("lib", FsNode.dir [("b.js", FsNode.file "B" 2 9)] 4 6)] 3 8)) = true ∧
    stripTimes (normalizeTree (FsNode.dir [("a.js", FsNode.file "A" 5 7),
      ("lib", FsNode.dir [("b.js", FsNode.file "B" 2 9)] 4 6)] 3 8))
      = stripTimes (FsNode.dir [("a.js", FsNode.file "A" 5 7),
      ("lib", FsNode.dir [("b.js", FsNode.file "B" 2 9)] 4 6)] 3 8) := by
  have hwf : wfTree (FsNode.dir [("a.js", FsNode.file "A" 5 7),
      ("lib", FsNode.dir [("b.js", FsNode.file "B" 2 9)] 4 6)] 3 8) = true := by
    rw [wfTree_dir]
    simp [namesNodup, wfTree_file, wfTree_dir]
  have h := normalization_zeroes_mtimes _ hwf
  exact ⟨hwf, h.1, h.2⟩

/-! ### Archive bytes are determined by the time-erased staging tree -/

theorem orderedInsert_map_entry (g : FsNode → FsNode) (x : String × FsNode)
    (l : List (String × FsNode)) :
    List.orderedInsert (fun a b => a.1 ≤ b.1) (x.1, g x.2)
        (l.map (fun e => (e.1, g e.2)))
      = (List.orderedInsert (fun a b => a.1 ≤ b.1) x l).map (fun e => (e.1, g e.2)) := by
  induction l with
  | nil => rfl
  | cons b tl ih =>
    rw [List.map_cons, List.orderedInsert, List.orderedInsert]
    by_cases h : x.1 ≤ b.1
    · rw [if_pos h, if_pos h]
      simp
    · rw [if_neg h, if_neg h]
      rw [List.map_cons, ih]

theorem sortCh_map_entry (g : FsNode → FsNode) (ch : List (String × FsNode)) :
    sortCh (ch.map (fun e => (e.1, g e.2))) = (sortCh ch).map (fun e => (e.1, g e.2)) := by
  rw [sortCh, sortCh]
  induction ch with
  | nil => rfl
  | cons x tl ih =>
    rw [List.map_cons, List.insertionSort, List.insertionSort, ih]
    exact orderedInsert_map_entry g x (List.insertionSort _ tl)

theorem lexPre_extract_map_strip (r : List String) (t : FsNode) :
    (lexPre r (mapMtimeZero t)).map (fun e => (e.1, contentsOf e.2, mtimeOf e.2))
      = (lexPre r (stripTimes t)).map (fun e => (e.1, contentsOf e.2, mtimeOf e.2)) := by
  induction r, t using lexPre.induct with
  | case1 r c a m =>
    rw [mapMtimeZero_file, stripTimes_file, lexPre_file, lexPre_file]
    simp [contentsOf, mtimeOf]
  | case2 r ch a m ih =>
    rw [mapMtimeZero_dir, stripTimes_dir, lexPre_dir, lexPre_dir]
    rw [sortCh_map_entry, sortCh_map_entry, List.flatMap_map, List.flatMap_map]
    simp only [List.map_cons, List.map_flatMap]
    refine congrArg₂ _ (by simp [contentsOf, mtimeOf]) ?_
    refine flatMap_congr_mem (fun e he => ?_)
    exact ih ⟨e, he⟩

theorem zipBytes_mapMtimeZero (t : FsNode) :
    zipBytes (mapMtimeZero t) = zipBytes (stripTimes t) := by
  rw [zipBytes, zipBytes, fsWalk_eq_lexPre, fsWalk_eq_lexPre]
  exact lexPre_extract_map_strip [] t

/-! ### Stub synthesis respects the time-erased tree and well-formedness -/

theorem stripTimes_ctor_file (x y : FsNode) (h : stripTimes x = stripTimes y) :
    (∃ c a m, x = FsNode.file c a m) ↔ (∃ c a m, y = FsNode.file c a m) := by
  cases x with
  | file cx ax mx =>
    cases y with
    | file cy ay my => simp
    | dir chy ay my =>
      rw [stripTimes_file, stripTimes_dir] at h
      cases h
  | dir chx ax mx =>
    cases y with
    | file cy ay my =>
      rw [stripTimes_file, stripTimes_dir] at h
      cases h
    | dir chy ay my =>
      constructor
      · intro ⟨c, a, m, hx⟩
        cases hx
      · intro ⟨c, a, m, hy⟩
        cases hy

theorem writeChild_strip (nm : String) (c : String) (a1 m1 a2 m2 : Int) :
    ∀ (ch1 ch2 : List (String × FsNode)),
      ch1.map (fun e => (e.1, stripTimes e.2)) = ch2.map (fun e => (e.1, stripTimes e.2)) →
      (writeChild nm c a1 m1 ch1).map (fun l => l.map (fun e => (e.1, stripTimes e.2)))
        = (writeChild nm c a2 m2 ch2).map (fun l => l.map (fun e => (e.1, stripTimes e.2))) := by
  intro ch1
  induction ch1 with
  | nil =>
    intro ch2 h
    have : ch2 = [] := by simpa using h.symm
    subst this
    simp [writeChild, stripTimes_file]
  | cons e1 tl1 ih =>
    intro ch2 h
    cases ch2 with
    | nil => simp at h
    | cons e2 tl2 =>
      obtain ⟨n1x, c1x⟩ := e1
      obtain ⟨n2x, c2x⟩ := e2
      simp only [List.map_cons, List.cons.injEq, Prod.mk.injEq] at h
      obtain ⟨⟨hn, hs⟩, htl⟩ := h
      subst hn
      simp only [writeChild]
      by_cases hb : n1x = nm
      · rw [if_pos hb, if_pos hb]
        cases c1x with
        | dir ch1x a1x m1x =>
          cases c2x with
          | dir ch2x a2x m2x => rfl
          | file c2y a2y m2y =>
            rw [stripTimes_dir, stripTimes_file] at hs
            cases hs
        | file c1y a1y m1y =>
          cases c2x with
          | dir ch2x a2x m2x =>
            rw [stripTimes_file, stripTimes_dir] at hs
            cases hs
          | file c2y a2y m2y =>
            simp [stripTimes_file, htl]
      · rw [if_neg hb, if_neg hb]
        have hrec := ih tl2 htl
        cases o1 : writeChild nm c a1 m1 tl1 with
        | none =>
          cases o2 : writeChild nm c a2 m2 tl2 with
          | none => rfl
          | some l2 =>
            rw [o1, o2] at hrec
            simp at hrec
        | some l1 =>
          cases o2 : writeChild nm c a2 m2 tl2 with
          | none =>
            rw [o1, o2] at hrec
            simp at hrec
          | some l2 =>
            rw [o1, o2] at hrec
            simp at hrec
            simp [hrec, hs]

theorem writeRootFile_strip (t1 t2 : FsNode) (nm : String) (c : String) (a1 m1 a2 m2 : Int)
    (h : stripTimes t1 = stripTimes t2) :
    (writeRootFile t1 nm c a1 m1).map stripTimes
      = (writeRootFile t2 nm c a2 m2).map stripTimes := by
  cases t1 with
  | file c1 ax mx =>
    cases t2 with
    | file c2 ay my => rfl
    | dir ch2 ay my =>
      rw [stripTimes_file, stripTimes_dir] at h
      cases h
  | dir ch1 ax mx =>
    cases t2 with
    | file c2 ay my =>
      rw [stripTimes_dir, stripTimes_file] at h
      cases h
    | dir ch2 ay my =>
      rw [stripTimes_dir, stripTimes_dir] at h
      have hch : ch1.map (fun e => (e.1, stripTimes e.2))
          = ch2.map (fun e => (e.1, stripTimes e.2)) := by
        have := (FsNode.dir.injEq _ _ _ _ _ _).mp h
        exact this.1
      have hw := writeChild_strip nm c a1 m1 a2 m2 ch1 ch2 hch
      rw [writeRootFile, writeRootFile]
      cases o1 : writeChild nm c a1 m1 ch1 with
      | none =>
        cases o2 : writeChild nm c a2 m2 ch2 with
        | none => rfl
        | some l2 =>
          rw [o1, o2] at hw
          simp at hw
      | some l1 =>
        cases o2 : writeChild nm c a2 m2 ch2 with
        | none =>
          rw [o1, o2] at hw
          simp at hw
        | some l2 =>
          rw [o1, o2] at hw
          simp at hw
          simp [stripTimes_dir, hw]

theorem stubStep_strip (env1 env2 : CollectEnv) (p : String) (t1 t2 : FsNode)
    (hcwd : env1.cwd = env2.cwd) (h : stripTimes t1 = stripTimes t2) :
    (stubStep env1 p t1).map stripTimes = (stubStep env2 p t2).map stripTimes := by
  rw [stubStep, stubStep]
  by_cases hd : pathDirname p = "."
  · rw [if_pos hd, if_pos hd]
    simp [h]
  · rw [if_neg hd, if_neg hd, hcwd]
    exact writeRootFile_strip t1 t2 _ _ _ _ _ _ h

theorem writeChild_names (nm : String) (c : String) (a m : Int) :
    ∀ (ch ch2 : List (String × FsNode)), writeChild nm c a m ch = some ch2 →
      ch2.map Prod.fst = ch.map Prod.fst ∨
        (ch2.map Prod.fst = ch.map Prod.fst ++ [nm] ∧ nm ∉ ch.map Prod.fst) := by
  intro ch
  induction ch with
  | nil =>
    intro ch2 h
    simp only [writeChild, Option.some.injEq] at h
    subst h
    right
    simp
  | cons e tl ih =>
    intro ch2 h
    obtain ⟨n0, c0⟩ := e
    simp only [writeChild] at h
    by_cases hb : n0 = nm
    · rw [if_pos hb] at h
      cases c0 with
      | dir chx ax mx => cases h
      | file cy ay my =>
        simp only [Option.some.injEq] at h
        subst h
        left
        simp
    · rw [if_neg hb] at h
      cases o1 : writeChild nm c a m tl with
      | none =>
        rw [o1] at h
        cases h
      | some l1 =>
        rw [o1] at h
        simp only [Option.map, Option.some.injEq] at h
        subst h
        rcases ih l1 o1 with hl | ⟨hl, hnm⟩
        · left
          simp [hl]
        · right
          constructor
          · simp [hl]
          · simp only [List.map_cons, List.mem_cons]
            rintro (he | he)
            · exact hb he.symm
            · exact hnm he

theorem writeChild_mem (nm : String) (c : String) (a m : Int) :
    ∀ (ch ch2 : List (String × FsNode)), writeChild nm c a m ch = some ch2 →
      ∀ e ∈ ch2, e ∈ ch ∨ e.2 = FsNode.file c a m := by
  intro ch
  induction ch with
  | nil =>
    intro ch2 h e he
    simp only [writeChild, Option.some.injEq] at h
    subst h
    simp only [List.mem_singleton] at he
    subst he
    right
    rfl
  | cons e0 tl ih =>
    intro ch2 h e he
    obtain ⟨n0, c0⟩ := e0
    simp only [writeChild] at h
    by_cases hb : n0 = nm
    · rw [if_pos hb] at h
      cases c0 with
      | dir chx ax mx => cases h
      | file cy ay my =>
        simp only [Option.some.injEq] at h
        subst h
        rcases List.mem_cons.mp he with he | he
        · subst he
          right
          rfl
        · left
          simp [he]
    · rw [if_neg hb] at h
      cases o1 : writeChild nm c a m tl with
      | none =>
        rw [o1] at h
        cases h
      | some l1 =>
        rw [o1] at h
        simp only [Option.map, Option.some.injEq] at h
        subst h
        rcases List.mem_cons.mp he with he | he
        · subst he
          left
          simp
        · rcases ih l1 o1 e he with h2 | h2
          · left
            simp [h2]
          · right
            exact h2

theorem writeRootFile_wf (t u : FsNode) (nm : String) (c : String) (a m : Int)
    (hwf : wfTree t = true) (h : writeRootFile t nm c a m = some u) : wfTree u = true := by
  cases t with
  | file c0 a0 m0 => cases h
  | dir ch a0 m0 =>
    rw [writeRootFile] at h
    cases o1 : writeChild nm c a m ch with
    | none =>
      rw [o1] at h
      cases h
    | some ch2 =>
      rw [o1] at h
      simp only [Option.map, Option.some.injEq] at h
      subst h
      rw [wfTree_dir, Bool.and_eq_true] at hwf ⊢
      obtain ⟨hnd, hall⟩ := hwf
      rw [List.all_eq_true] at hall
      constructor
      · rcases writeChild_names nm c a m ch ch2 o1 with hl | ⟨hl, hnm⟩
        · rw [hl]
          exact hnd
        · rw [hl]
          rw [namesNodup_iff] at hnd ⊢
          rw [List.nodup_append]
          exact ⟨hnd, List.nodup_singleton nm, by simpa using hnm⟩
      · rw [List.all_eq_true]
        intro e he
        rcases writeChild_mem nm c a m ch ch2 o1 e he with h2 | h2
        · exact hall e h2
        · rw [h2, wfTree_file]

theorem stubStep_wf (env : CollectEnv) (p : String) (t u : FsNode)
    (hwf : wfTree t = true) (h : stubStep env p t = some u) : wfTree u = true := by
  rw [stubStep] at h
  by_cases hd : pathDirname p = "."
  · rw [if_pos hd] at h
    simp only [Option.some.injEq] at h
    subst h
    exact hwf
  · rw [if_neg hd] at h
    exact writeRootFile_wf t u _ _ _ _ hwf h

theorem makeTmpZipFile_archive_eq (env : CollectEnv) (np n0 : Option String) (p : String)
    (t u : FsNode) (hc : env.collect p = some t) (hs : stubStep env p t = some u)
    (hz : env.zipOk = true) :
    (makeTmpZipFile env n0 p { nodePath := np, cache := none }).archive
      = some (zipBytes (normalizeTree u)) := by
  rw [makeTmpZipFile]
  simp [makeTmpZipBuild, hc, hs, hz]

/-- C3: two pipeline runs on the same entry file, each with a fresh staging
tree, that stage identical Dependency Set contents (equal time-erased
collector outputs, hence identical stub decisions) produce archives with
identical content. -/
theorem reproducible_archives
    (env1 env2 : CollectEnv) (np1 np2 n1 n2 : Option String) (p : String)
    (t1 t2 u1 : FsNode)
    (hcwd : env1.cwd = env2.cwd)
    (h1 : env1.collect p = some t1) (h2 : env2.collect p = some t2)
    (hstrip : stripTimes t1 = stripTimes t2)
    (hwf1 : wfTree t1 = true) (hwf2 : wfTree t2 = true)
    (hz1 : env1.zipOk = true) (hz2 : env2.zipOk = true)
    (hs1 : stubStep env1 p t1 = some u1) :
    ∃ u2, stubStep env2 p t2 = some u2 ∧
      (makeTmpZipFile env1 n1 p { nodePath := np1, cache := none }).archive
        = some (zipBytes (normalizeTree u1)) ∧
      (makeTmpZipFile env2 n2 p { nodePath := np2, cache := none }).archive
        = some (zipBytes (normalizeTree u2)) ∧
      (makeTmpZipFile env1 n1 p { nodePath := np1, cache := none }).archive
        = (makeTmpZipFile env2 n2 p { nodePath := np2, cache := none }).archive := by
  have hmap := stubStep_strip env1 env2 p t1 t2 hcwd hstrip
  rw [hs1] at hmap
  cases o2 : stubStep env2 p t2 with
  | none =>
    rw [o2] at hmap
    simp at hmap
  | some u2 =>
    rw [o2] at hmap
    simp only [Option.map] at hmap
    have hstripu : stripTimes u1 = stripTimes u2 := by
      simpa using hmap
    have hwu1 : wfTree u1 = true := stubStep_wf env1 p t1 u1 hwf1 hs1
    have hwu2 : wfTree u2 = true := stubStep_wf env2 p t2 u2 hwf2 o2
    refine ⟨u2, rfl, makeTmpZipFile_archive_eq env1 np1 n1 p t1 u1 h1 hs1 hz1,
      makeTmpZipFile_archive_eq env2 np2 n2 p t2 u2 h2 o2 hz2, ?_⟩
    rw [makeTmpZipFile_archive_eq env1 np1 n1 p t1 u1 h1 hs1 hz1,
      makeTmpZipFile_archive_eq env2 np2 n2 p t2 u2 h2 o2 hz2]
    rw [normalizeTree_eq_mapMtimeZero u1 hwu1, normalizeTree_eq_mapMtimeZero u2 hwu2,
      zipBytes_mapMtimeZero, zipBytes_mapMtimeZero, hstripu]

theorem reproducible_archives_witness :
    (makeTmpZipFile
        { cwd := "/w",
          collect := fun q => if q = "lib/bar.js"
            then some (FsNode.dir
              [("lib", FsNode.dir [("bar.js", FsNode.file "B" 10 11)] 12 13)] 14 15)
            else none,
          stubAtime := 1, stubMtime := 2, tmpZipName := "/tmp/z1.zip", zipOk := true }
        none "lib/bar.js" { nodePath := none, cache := none }).archive
      = (makeTmpZipFile
        { cwd := "/w",
          collect := fun q => if q = "lib/bar.js"
            then some (FsNode.dir
              [("lib", FsNode.dir [("bar.js", FsNode.file "B" 20 21)] 22 23)] 24 25)
            else none,
          stubAtime := 1, stubMtime := 2, tmpZipName := "/tmp/z2.zip", zipOk := true }
        none "lib/bar.js" { nodePath := none, cache := none }).archive := by
  obtain ⟨u2, _, _, _, h4⟩ :=
    reproducible_archives
      { cwd := "/w",
        collect := fun q => if q = "lib/bar.js"
          then some (FsNode.dir
            [("lib", FsNode.dir [("bar.js", FsNode.file "B" 10 11)] 12 13)] 14 15)
          else none,
        stubAtime := 1, stubMtime := 2, tmpZipName := "/tmp/z1.zip", zipOk := true }
      { cwd := "/w",
        collect := fun q => if q = "lib/bar.js"
          then some (FsNode.dir
            [("lib", FsNode.dir [("bar.js", FsNode.file "B" 20 21)] 22 23)] 24 25)
          else none,
        stubAtime := 1, stubMtime := 2, tmpZipName := "/tmp/z2.zip", zipOk := true }
      none none none none "lib/bar.js"
      (FsNode.dir [("lib", FsNode.dir [("bar.js", FsNode.file "B" 10 11)] 12 13)] 14 15)
      (FsNode.dir [("lib", FsNode.dir [("bar.js", FsNode.file "B" 20 21)] 22 23)] 24 25)
      (FsNode.dir [("lib", FsNode.dir [("bar.js", FsNode.file "B" 10 11)] 12 13),
        ("bar.js", FsNode.file (stubContentsOf "/w" "lib/bar.js") 1 2)] 14 15)
      rfl rfl rfl
      (by simp [stripTimes_dir, stripTimes_file])
      (by simp [wfTree_dir, wfTree_file, namesNodup])
      (by simp [wfTree_dir, wfTree_file, namesNodup])
      rfl rfl rfl
  exact h4

theorem cacheGet_cacheSet (c : ZipFileCache) (k v : String) :
    cacheGet (cacheSet c k v) k = v := by
  induction c with
  | nil => simp [cacheGet, cacheSet, List.find?]
  | cons e tl ih =>
    by_cases h : e.1 = k
    · simp [cacheSet, h, cacheGet, List.find?]
    · simp only [cacheSet, if_neg h]
      simp only [cacheGet, List.find?] at ih ⊢
      have hb : (e.1 == k) = false := by simp [h]
      rw [hb]
      exact ih

/-- C1: with a supplied cache, a hit returns the cached archive path without
invoking the collector and leaves cache and NODE_PATH untouched; a miss
invokes the collector, and when the build returns the fresh archive path the
cache maps the entry path to that archive path afterwards. -/
theorem caching_behavior
    (env : CollectEnv) (n0 np : Option String) (p : String) (c : ZipFileCache) :
    (cacheHas c p = true →
      makeTmpZipFile env n0 p { nodePath := np, cache := some c }
        = { result := Except.ok (cacheGet c p), cache := some c, nodePath := n0,
            collectorCalled := false, archive := none }) ∧
    (cacheHas c p = false →
      (makeTmpZipFile env n0 p { nodePath := np, cache := some c }).collectorCalled
          = true ∧
      ((makeTmpZipFile env n0 p { nodePath := np, cache := some c }).result
          = Except.ok env.tmpZipName →
        (makeTmpZipFile env n0 p { nodePath := np, cache := some c }).cache
            = some (cacheSet c p env.tmpZipName) ∧
        cacheGet (cacheSet c p env.tmpZipName) p = env.tmpZipName)) := by
  constructor
  · intro hhit
    simp [makeTmpZipFile, hhit]
  · intro hmiss
    simp only [makeTmpZipFile, hmiss, Bool.false_eq_true, if_false]
    cases hc : env.collect p with
    | none => simp [makeTmpZipBuild, hc]
    | some t0 =>
      cases hs : stubStep env p t0 with
      | none => simp [makeTmpZipBuild, hc, hs]
      | some t1 =>
        by_cases hz : env.zipOk
        · simp [makeTmpZipBuild, hc, hs, hz, cacheGet_cacheSet]
        · simp [makeTmpZipBuild, hc, hs, hz]

theorem caching_behavior_witness :
    cacheHas [("lib/a.js", "/tmp/old.zip")] "lib/a.js" = true ∧
    makeTmpZipFile
        { cwd := "/w", collect := fun _ => some (FsNode.dir [] 0 0),
          stubAtime := 0, stubMtime := 0, tmpZipName := "/tmp/new.zip", zipOk := true }
        none "lib/a.js"
        { nodePath := none, cache := some [("lib/a.js", "/tmp/old.zip")] }
      = { result := Except.ok (cacheGet [("lib/a.js", "/tmp/old.zip")] "lib/a.js"),
          cache := some [("lib/a.js", "/tmp/old.zip")], nodePath := none,
          collectorCalled := false, archive := none } ∧
    cacheHas [("lib/a.js", "/tmp/old.zip")] "lib/b.js" = false ∧
    (makeTmpZipFile
        { cwd := "/w", collect := fun _ => some (FsNode.dir [] 0 0),
          stubAtime := 0, stubMtime := 0, tmpZipName := "/tmp/new.zip", zipOk := true }
        none "lib/b.js"
        { nodePath := none, cache := some [("lib/a.js", "/tmp/old.zip")] }).collectorCalled
      = true ∧
    (makeTmpZipFile
        { cwd := "/w", collect := fun _ => some (FsNode.dir [] 0 0),
          stubAtime := 0, stubMtime := 0, tmpZipName := "/tmp/new.zip", zipOk := true }
        none "lib/b.js"
        { nodePath := none, cache := some [("lib/a.js", "/tmp/old.zip")] }).cache
      = some (cacheSet [("lib/a.js", "/tmp/old.zip")] "lib/b.js" "/tmp/new.zip") ∧
    cacheGet (cacheSet [("lib/a.js", "/tmp/old.zip")] "lib/b.js" "/tmp/new.zip") "lib/b.js"
      = "/tmp/new.zip" := by
  have h1 := caching_behavior
    { cwd := "/w", collect := fun _ => some (FsNode.dir [] 0 0),
      stubAtime := 0, stubMtime := 0, tmpZipName := "/tmp/new.zip", zipOk := true }
    none none "lib/a.js" [("lib/a.js", "/tmp/old.zip")]
  have h2 := caching_behavior
    { cwd := "/w", collect := fun _ => some (FsNode.dir [] 0 0),
      stubAtime := 0, stubMtime := 0, tmpZipName := "/tmp/new.zip", zipOk := true }
    none none "lib/b.js" [("lib/a.js", "/tmp/old.zip")]
  have hmiss := h2.2 (by decide)
  have hres := hmiss.2 rfl
  exact ⟨by decide, h1.1 (by decide), by decide, hmiss.1, hres.1, hres.2⟩

/-- C9: refuted — when `NODE_PATH` is initially unset and no `nodePath`
option is given, a cache-miss run does not restore the variable: the
`finally` block's `process.env.NODE_PATH = prevNodePath` (line 143) assigns
`undefined`, which Node coerces to the string `"undefined"`, so the variable
is set after the call although it was unset before. -/
theorem node_path_not_restored :
    (makeTmpZipFile
        { cwd := "/w", collect := fun _ => some (FsNode.dir [] 0 0),
          stubAtime := 0, stubMtime := 0, tmpZipName := "/t.zip", zipOk := true }
        none "lib/bar.js" { nodePath := none, cache := none }).nodePath
      = some "undefined" ∧
    (makeTmpZipFile
        { cwd := "/w", collect := fun _ => some (FsNode.dir [] 0 0),
          stubAtime := 0, stubMtime := 0, tmpZipName := "/t.zip", zipOk := true }
        none "lib/bar.js" { nodePath := none, cache := none }).nodePath
      ≠ none :=
  ⟨rfl, fun h => Option.noConfusion h⟩

theorem findFileAt_file_nil (c : String) (a m : Int) :
    findFileAt (FsNode.file c a m) [] = some c := by
  rw [findFileAt]

theorem findFileAt_dir_nil (ch : List (String × FsNode)) (a m : Int) :
    findFileAt (FsNode.dir ch a m) [] = none := by
  rw [findFileAt]

theorem findFileAt_file_cons (c : String) (a m : Int) (n : String) (q : List String) :
    findFileAt (FsNode.file c a m) (n :: q) = none := by
  rw [findFileAt]

theorem findFileAt_dir_cons (ch : List (String × FsNode)) (a m : Int) (n : String)
    (q : List String) :
    findFileAt (FsNode.dir ch a m) (n :: q)
      = match ch.find? (fun e => e.1 == n) with
        | none => none
        | some e => findFileAt e.2 q := by
  rw [findFileAt]

theorem writeChild_find_self (nm c : String) (a m : Int) (ch ch2 : List (String × FsNode))
    (h : writeChild nm c a m ch = some ch2) :
    ch2.find? (fun e => e.1 == nm) = some (nm, FsNode.file c a m) := by
  induction ch generalizing ch2 with
  | nil =>
    simp only [writeChild, Option.some.injEq] at h
    subst h
    simp [List.find?]
  | cons e0 tl ih =>
    obtain ⟨n0, v0⟩ := e0
    by_cases he : n0 = nm
    · simp only [writeChild, if_pos he] at h
      cases v0 with
      | dir ch0 a0 m0 => exact absurd h (by simp)
      | file c0 a0 m0 =>
        simp only [Option.some.injEq] at h
        subst h
        subst he
        simp [List.find?]
    · simp only [writeChild, if_neg he] at h
      cases hw : writeChild nm c a m tl with
      | none => rw [hw] at h; simp at h
      | some tl2 =>
        rw [hw] at h
        simp only [Option.map, Option.some.injEq] at h
        subst h
        have hb : (n0 == nm) = false := by simp [he]
        simp only [List.find?, hb]
        exact ih tl2 hw

theorem writeChild_find_other (nm c : String) (a m : Int) (n : String) (hne : n ≠ nm)
    (ch ch2 : List (String × FsNode)) (h : writeChild nm c a m ch = some ch2) :
    ch2.find? (fun e => e.1 == n) = ch.find? (fun e => e.1 == n) := by
  induction ch generalizing ch2 with
  | nil =>
    simp only [writeChild, Option.some.injEq] at h
    subst h
    have hb : (nm == n) = false := by
      simp only [beq_eq_false_iff_ne, ne_eq]
      intro hx
      exact hne hx.symm
    simp [List.find?, hb]
  | cons e0 tl ih =>
    obtain ⟨n0, v0⟩ := e0
    by_cases he : n0 = nm
    · simp only [writeChild, if_pos he] at h
      cases v0 with
      | dir ch0 a0 m0 => exact absurd h (by simp)
      | file c0 a0 m0 =>
        simp only [Option.some.injEq] at h
        subst h
        have hb : (n0 == n) = false := by
          simp only [beq_eq_false_iff_ne, ne_eq]
          intro hx
          exact hne (he ▸ hx).symm
        simp [List.find?, hb]
    · simp only [writeChild, if_neg he] at h
      cases hw : writeChild nm c a m tl with
      | none => rw [hw] at h; simp at h
      | some tl2 =>
        rw [hw] at h
        simp only [Option.map, Option.some.injEq] at h
        subst h
        simp only [List.find?]
        cases hb : (n0 == n) with
        | true => rfl
        | false => exact ih tl2 hw

theorem writeChild_old_file (nm c : String) (a m : Int)
    (ch ch2 : List (String × FsNode)) (h : writeChild nm c a m ch = some ch2)
    (e : String × FsNode) (hf : ch.find? (fun x => x.1 == nm) = some e) :
    ∃ c0 a0 m0, e.2 = FsNode.file c0 a0 m0 := by
  induction ch generalizing ch2 with
  | nil => simp [List.find?] at hf
  | cons e0 tl ih =>
    obtain ⟨n0, v0⟩ := e0
    by_cases he : n0 = nm
    · simp only [writeChild, if_pos he] at h
      cases v0 with
      | dir ch0 a0 m0 => exact absurd h (by simp)
      | file c0 a0 m0 =>
        have hb : (n0 == nm) = true := by simp [he]
        simp only [List.find?, hb, Option.some.injEq] at hf
        subst hf
        exact ⟨c0, a0, m0, rfl⟩
    · have hb : (n0 == nm) = false := by simp [he]
      simp only [List.find?, hb] at hf
      simp only [writeChild, if_neg he] at h
      cases hw : writeChild nm c a m tl with
      | none => rw [hw] at h; simp at h
      | some tl2 => exact ih tl2 hw hf

/-- C8 (amended): the stub write into the staging root is a frame write: the
path of the stub afterwards holds exactly the stub contents, and every OTHER
path resolves to the same file contents as before.  The original claim is
refuted for the stub path itself: `fse.writeFile` is last-write-wins, so a
staged root file bearing the stub's name is overwritten (see the
counterexample theorem). -/
theorem stub_write_frame (t u : FsNode) (nm c : String) (a m : Int)
    (h : writeRootFile t nm c a m = some u) :
    findFileAt u [nm] = some c ∧
    ∀ q : List String, q ≠ [nm] → findFileAt u q = findFileAt t q := by
  cases t with
  | file c0 a0 m0 => simp [writeRootFile] at h
  | dir ch da dm =>
    simp only [writeRootFile] at h
    cases hw : writeChild nm c a m ch with
    | none => rw [hw] at h; simp at h
    | some ch2 =>
      rw [hw] at h
      simp only [Option.map, Option.some.injEq] at h
      subst h
      constructor
      · rw [findFileAt_dir_cons, writeChild_find_self nm c a m ch ch2 hw]
        exact findFileAt_file_nil c a m
      · intro q hq
        cases q with
        | nil => rw [findFileAt_dir_nil, findFileAt_dir_nil]
        | cons n q2 =>
          by_cases hn : n = nm
          · subst hn
            cases q2 with
            | nil => exact absurd rfl hq
            | cons x xs =>
              rw [findFileAt_dir_cons, findFileAt_dir_cons,
                writeChild_find_self n c a m ch ch2 hw]
              cases hf : ch.find? (fun e => e.1 == n) with
              | none =>
                show findFileAt (FsNode.file c a m) (x :: xs) = none
                exact findFileAt_file_cons c a m x xs
              | some e =>
                obtain ⟨c0, a0, m0, he⟩ := writeChild_old_file n c a m ch ch2 hw e hf
                show findFileAt (FsNode.file c a m) (x :: xs) = findFileAt e.2 (x :: xs)
                rw [he, findFileAt_file_cons, findFileAt_file_cons]
          · rw [findFileAt_dir_cons, findFileAt_dir_cons,
              writeChild_find_other nm c a m n hn ch ch2 hw]

theorem stub_write_frame_witness :
    findFileAt (FsNode.dir [("a.js", FsNode.file "A" 5 6), ("bar.js", FsNode.file "S" 1 2)] 7 8)
        ["bar.js"] = some "S" ∧
    findFileAt (FsNode.dir [("a.js", FsNode.file "A" 5 6), ("bar.js", FsNode.file "S" 1 2)] 7 8)
        ["a.js"]
      = findFileAt (FsNode.dir [("a.js", FsNode.file "A" 5 6)] 7 8) ["a.js"] := by
  have h := stub_write_frame (FsNode.dir [("a.js", FsNode.file "A" 5 6)] 7 8)
    (FsNode.dir [("a.js", FsNode.file "A" 5 6), ("bar.js", FsNode.file "S" 1 2)] 7 8)
    "bar.js" "S" 1 2 rfl
  exact ⟨h.1, h.2 ["a.js"] (by decide)⟩

theorem stub_overwrites_staged_file :
    ∃ u, stubStep
        { cwd := "/w", collect := fun _ => none, stubAtime := 1, stubMtime := 2,
          tmpZipName := "/t.zip", zipOk := true }
        "lib/bar.js"
        (FsNode.dir [("bar.js", FsNode.file "ORIG" 0 0),
          ("lib", FsNode.dir [("bar.js", FsNode.file "N" 0 0)] 0 0)] 0 0)
      = some u ∧
    findFileAt (FsNode.dir [("bar.js", FsNode.file "ORIG" 0 0),
        ("lib", FsNode.dir [("bar.js", FsNode.file "N" 0 0)] 0 0)] 0 0) ["bar.js"]
      = some "ORIG" ∧
    findFileAt u ["bar.js"] = some (stubContentsOf "/w" "lib/bar.js") ∧
    findFileAt u ["bar.js"]
      ≠ findFileAt (FsNode.dir [("bar.js", FsNode.file "ORIG" 0 0),
          ("lib", FsNode.dir [("bar.js", FsNode.file "N" 0 0)] 0 0)] 0 0) ["bar.js"] := by
  refine ⟨FsNode.dir [("bar.js", FsNode.file (stubContentsOf "/w" "lib/bar.js") 1 2),
      ("lib", FsNode.dir [("bar.js", FsNode.file "N" 0 0)] 0 0)] 0 0, rfl, ?_, ?_, ?_⟩
  · rw [findFileAt_dir_cons]
    simp only [List.find?, beq_self_eq_true]
    exact findFileAt_file_nil "ORIG" 0 0
  · rw [findFileAt_dir_cons]
    simp only [List.find?, beq_self_eq_true]
    exact findFileAt_file_nil (stubContentsOf "/w" "lib/bar.js") 1 2
  · rw [findFileAt_dir_cons, findFileAt_dir_cons]
    simp only [List.find?, beq_self_eq_true]
    rw [findFileAt_file_nil, findFileAt_file_nil]
    simp only [ne_eq, Option.some.injEq]
    decide

/-- C7: `packageZipS3` bucket handling: a successful `headBucket` uses the
bucket as-is (no `createBucket`, no bucket error); `NotFound` creates the
bucket and proceeds; `Forbidden` fails with the permission error naming the
bucket and uploads nothing; any other head failure propagates its code and
uploads nothing. -/
theorem bucket_check_behavior
    (env : CollectEnv) (n0 : Option String) (senv : S3Env) (p : String) (opts : S3Opts) :
    (senv.headBucket = none →
      (packageZipS3 env n0 senv p opts).createdBucket = false ∧
      (∀ b, (packageZipS3 env n0 senv p opts).result
          ≠ Except.error (S3Err.permissionDenied b)) ∧
      (∀ c, (packageZipS3 env n0 senv p opts).result
          ≠ Except.error (S3Err.headBucketFailed c))) ∧
    (senv.headBucket = some "NotFound" →
      (packageZipS3 env n0 senv p opts).createdBucket = true) ∧
    (senv.headBucket = some "Forbidden" →
      (packageZipS3 env n0 senv p opts).result
          = Except.error (S3Err.permissionDenied (jsOr opts.s3Bucket "aws-lambda-upload")) ∧
      (packageZipS3 env n0 senv p opts).uploads = [] ∧
      (packageZipS3 env n0 senv p opts).createdBucket = false) ∧
    (∀ code, senv.headBucket = some code → code ≠ "Forbidden" → code ≠ "NotFound" →
      (packageZipS3 env n0 senv p opts).result
          = Except.error (S3Err.headBucketFailed code) ∧
      (packageZipS3 env n0 senv p opts).uploads = [] ∧
      (packageZipS3 env n0 senv p opts).createdBucket = false) := by
  refine ⟨?_, ?_, ?_, ?_⟩
  · intro h
    simp only [packageZipS3, h]
    cases hr : (makeTmpZipFile env n0 p opts.collectOpts).result with
    | error e => simp
    | ok tmpPath =>
      by_cases hl : listFirst senv.bucketKeys
          (normPfx (jsOr opts.s3Pfx "") ++ md5HexOf (senv.readFile tmpPath) ++ ".zip")
        = some (normPfx (jsOr opts.s3Pfx "") ++ md5HexOf (senv.readFile tmpPath) ++ ".zip")
      · simp [hl]
      · simp [hl]
  · intro h
    simp only [packageZipS3, h]
    norm_num
    cases hr : (makeTmpZipFile env n0 p opts.collectOpts).result with
    | error e => simp
    | ok tmpPath =>
      by_cases hl : listFirst senv.bucketKeys
          (normPfx (jsOr opts.s3Pfx "") ++ md5HexOf (senv.readFile tmpPath) ++ ".zip")
        = some (normPfx (jsOr opts.s3Pfx "") ++ md5HexOf (senv.readFile tmpPath) ++ ".zip")
      · simp [hl]
      · simp [hl]
  · intro h
    simp [packageZipS3, h]
  · intro code h hforb hnf
    simp [packageZipS3, h, hforb, hnf]

theorem bucket_check_behavior_witness :
    (packageZipS3
        { cwd := "/w", collect := fun _ => some (FsNode.dir [] 0 0),
          stubAtime := 0, stubMtime := 0, tmpZipName := "/t.zip", zipOk := true }
        none
        { headBucket := some "Forbidden", bucketKeys := [], readFile := fun _ => [] }
        "lib/a.js"
        { s3Bucket := none, s3Pfx := none,
          collectOpts := { nodePath := none, cache := none } }).result
      = Except.error (S3Err.permissionDenied (jsOr none "aws-lambda-upload")) ∧
    (packageZipS3
        { cwd := "/w", collect := fun _ => some (FsNode.dir [] 0 0),
          stubAtime := 0, stubMtime := 0, tmpZipName := "/t.zip", zipOk := true }
        none
        { headBucket := some "Forbidden", bucketKeys := [], readFile := fun _ => [] }
        "lib/a.js"
        { s3Bucket := none, s3Pfx := none,
          collectOpts := { nodePath := none, cache := none } }).uploads = [] ∧
    (packageZipS3
        { cwd := "/w", collect := fun _ => some (FsNode.dir [] 0 0),
          stubAtime := 0, stubMtime := 0, tmpZipName := "/t.zip", zipOk := true }
        none
        { headBucket := some "BadGateway", bucketKeys := [], readFile := fun _ => [] }
        "lib/a.js"
        { s3Bucket := none, s3Pfx := none,
          collectOpts := { nodePath := none, cache := none } }).result
      = Except.error (S3Err.headBucketFailed "BadGateway") ∧
    (packageZipS3
        { cwd := "/w", collect := fun _ => some (FsNode.dir [] 0 0),
          stubAtime := 0, stubMtime := 0, tmpZipName := "/t.zip", zipOk := true }
        none
        { headBucket := some "NotFound", bucketKeys := [], readFile := fun _ => [] }
        "lib/a.js"
        { s3Bucket := none, s3Pfx := none,
          collectOpts := { nodePath := none, cache := none } }).createdBucket = true := by
  have hforb := bucket_check_behavior
    { cwd := "/w", collect := fun _ => some (FsNode.dir [] 0 0),
      stubAtime := 0, stubMtime := 0, tmpZipName := "/t.zip", zipOk := true }
    none
    { headBucket := some "Forbidden", bucketKeys := [], readFile := fun _ => [] }
    "lib/a.js"
    { s3Bucket := none, s3Pfx := none, collectOpts := { nodePath := none, cache := none } }
  have hbad := bucket_check_behavior
    { cwd := "/w", collect := fun _ => some (FsNode.dir [] 0 0),
      stubAtime := 0, stubMtime := 0, tmpZipName := "/t.zip", zipOk := true }
    none
    { headBucket := some "BadGateway", bucketKeys := [], readFile := fun _ => [] }
    "lib/a.js"
    { s3Bucket := none, s3Pfx := none, collectOpts := { nodePath := none, cache := none } }
  have hnf := bucket_check_behavior
    { cwd := "/w", collect := fun _ => some (FsNode.dir [] 0 0),
      stubAtime := 0, stubMtime := 0, tmpZipName := "/t.zip", zipOk := true }
    none
    { headBucket := some "NotFound", bucketKeys := [], readFile := fun _ => [] }
    "lib/a.js"
    { s3Bucket := none, s3Pfx := none, collectOpts := { nodePath := none, cache := none } }
  exact ⟨(hforb.2.2.1 rfl).1, (hforb.2.2.1 rfl).2.1,
    (hbad.2.2.2 "BadGateway" rfl (by decide) (by decide)).1, hnf.2.1 rfl⟩

theorem not_lex_app (l t : List Char) : ¬ List.Lex (fun a b => a < b) (l ++ t) l := by
  induction l with
  | nil => intro h; cases h
  | cons c l ih =>
    intro h
    cases h with
    | cons h => exact ih h
    | rel h => exact absurd h (lt_irrefl c)

theorem le_of_pref (l m : List Char) (h : l.isPrefixOf m = true) :
    (⟨l⟩ : String) ≤ ⟨m⟩ := by
  rw [String.le_iff_toList_le]
  obtain ⟨t, rfl⟩ := List.isPrefixOf_iff_prefix.mp h
  rw [← not_lt]
  show ¬ List.Lex (fun a b => a < b) (l ++ t) l
  exact not_lex_app l t

theorem foldStep_min (l : List String) (a : String) :
    ∃ b, l.foldl
        (fun acc k =>
          match acc with
          | none => some k
          | some m => if k < m then some k else some m) (some a) = some b ∧
      (b = a ∨ b ∈ l) ∧ b ≤ a ∧ ∀ x ∈ l, b ≤ x := by
  induction l generalizing a with
  | nil =>
    refine ⟨a, rfl, Or.inl rfl, le_refl a, ?_⟩
    intro x hx
    cases hx
  | cons y tl ih =>
    by_cases hy : y < a
    · obtain ⟨b, hfold, hmem, hle, hall⟩ := ih y
      refine ⟨b, ?_, ?_, le_trans hle (le_of_lt hy), ?_⟩
      · rw [List.foldl_cons]
        simpa [hy] using hfold
      · rcases hmem with h | h
        · exact Or.inr (h ▸ List.mem_cons_self y tl)
        · exact Or.inr (List.mem_cons_of_mem y h)
      · intro x hx
        rcases List.mem_cons.mp hx with rfl | hx
        · exact hle
        · exact hall x hx
    · obtain ⟨b, hfold, hmem, hle, hall⟩ := ih a
      refine ⟨b, ?_, ?_, hle, ?_⟩
      · rw [List.foldl_cons]
        simpa [hy] using hfold
      · rcases hmem with h | h
        · exact Or.inl h
        · exact Or.inr (List.mem_cons_of_mem y h)
      · intro x hx
        rcases List.mem_cons.mp hx with rfl | hx
        · exact le_trans hle (not_lt.mp hy)
        · exact hall x hx

theorem listFirst_self_iff (keys : List String) (k : String) :
    listFirst keys k = some k ↔ k ∈ keys := by
  constructor
  · intro h
    cases hf : keys.filter (fun x => k.data.isPrefixOf x.data) with
    | nil =>
      rw [listFirst, hf] at h
      simp at h
    | cons y tl =>
      rw [listFirst, hf, List.foldl_cons] at h
      obtain ⟨b, hfold, hmem, hle, hall⟩ := foldStep_min tl y
      have h2 : tl.foldl
          (fun acc k =>
            match acc with
            | none => some k
            | some m => if k < m then some k else some m) (some y) = some k := h
      rw [hfold] at h2
      have hbk : b = k := by simpa using h2
      have hbmem : b ∈ keys.filter (fun x => k.data.isPrefixOf x.data) := by
        rw [hf]
        rcases hmem with rfl | hm
        · exact List.mem_cons_self b tl
        · exact List.mem_cons_of_mem y hm
      exact hbk ▸ (List.mem_filter.mp hbmem).1
  · intro hmem
    have hpred : k.data.isPrefixOf k.data = true :=
      List.isPrefixOf_iff_prefix.mpr (List.prefix_refl k.data)
    have hkf : k ∈ keys.filter (fun x => k.data.isPrefixOf x.data) :=
      List.mem_filter.mpr ⟨hmem, hpred⟩
    cases hf : keys.filter (fun x => k.data.isPrefixOf x.data) with
    | nil =>
      rw [hf] at hkf
      cases hkf
    | cons y tl =>
      rw [hf] at hkf
      obtain ⟨b, hfold, hmemb, hle, hall⟩ := foldStep_min tl y
      have hlf : listFirst keys k = some b := by
        rw [listFirst, hf, List.foldl_cons]
        exact hfold
      have hbk : b ≤ k := by
        rcases List.mem_cons.mp hkf with hk | hk
        · exact hk ▸ hle
        · exact hall k hk
      have hbf : b ∈ keys.filter (fun x => k.data.isPrefixOf x.data) := by
        rw [hf]
        rcases hmemb with rfl | hm
        · exact List.mem_cons_self b tl
        · exact List.mem_cons_of_mem y hm
      have hkb : k ≤ b := le_of_pref k.data b.data (List.mem_filter.mp hbf).2
      rw [hlf, le_antisymm hbk hkb]

/-- C6: when the bucket check succeeds and the packaging pipeline returns an
archive path, the remote key is derived deterministically from the archive
bytes (normalized prefix, hex content checksum, `.zip`); the `MaxKeys: 1`
prefix listing amounts to an exact existence check for that key, so the
upload is skipped exactly when the key is already in the bucket, otherwise
the archive is uploaded with its base64 checksum attached; in both cases the
returned location is the same `(bucket, key)` pair. -/
theorem content_addressed_upload
    (env : CollectEnv) (n0 : Option String) (senv : S3Env) (p : String) (opts : S3Opts)
    (tmpPath : String) (hhead : senv.headBucket = none)
    (hok : (makeTmpZipFile env n0 p opts.collectOpts).result = Except.ok tmpPath) :
    (packageZipS3 env n0 senv p opts).result
        = Except.ok (jsOr opts.s3Bucket "aws-lambda-upload",
            normPfx (jsOr opts.s3Pfx "") ++ md5HexOf (senv.readFile tmpPath) ++ ".zip") ∧
    ((normPfx (jsOr opts.s3Pfx "") ++ md5HexOf (senv.readFile tmpPath) ++ ".zip")
        ∈ senv.bucketKeys →
      (packageZipS3 env n0 senv p opts).uploads = []) ∧
    ((normPfx (jsOr opts.s3Pfx "") ++ md5HexOf (senv.readFile tmpPath) ++ ".zip")
        ∉ senv.bucketKeys →
      (packageZipS3 env n0 senv p opts).uploads
        = [(normPfx (jsOr opts.s3Pfx "") ++ md5HexOf (senv.readFile tmpPath) ++ ".zip",
            senv.readFile tmpPath, md5B64Of (senv.readFile tmpPath))]) := by
  refine ⟨?_, ?_, ?_⟩
  · simp only [packageZipS3, hhead, hok]
    by_cases hl : listFirst senv.bucketKeys
        (normPfx (jsOr opts.s3Pfx "") ++ md5HexOf (senv.readFile tmpPath) ++ ".zip")
      = some (normPfx (jsOr opts.s3Pfx "") ++ md5HexOf (senv.readFile tmpPath) ++ ".zip")
    · simp [hl]
    · simp [hl]
  · intro hmem
    have hl := (listFirst_self_iff senv.bucketKeys
      (normPfx (jsOr opts.s3Pfx "") ++ md5HexOf (senv.readFile tmpPath) ++ ".zip")).mpr hmem
    simp only [packageZipS3, hhead, hok]
    simp [hl]
  · intro hnot
    have hl : ¬ (listFirst senv.bucketKeys
        (normPfx (jsOr opts.s3Pfx "") ++ md5HexOf (senv.readFile tmpPath) ++ ".zip")
      = some (normPfx (jsOr opts.s3Pfx "") ++ md5HexOf (senv.readFile tmpPath) ++ ".zip")) :=
      fun hc => hnot ((listFirst_self_iff senv.bucketKeys
        (normPfx (jsOr opts.s3Pfx "") ++ md5HexOf (senv.readFile tmpPath) ++ ".zip")).mp hc)
    simp only [packageZipS3, hhead, hok]
    simp [hl]

theorem content_addressed_upload_witness :
    (packageZipS3
        { cwd := "/w", collect := fun _ => some (FsNode.dir [] 0 0),
          stubAtime := 0, stubMtime := 0, tmpZipName := "/t.zip", zipOk := true }
        none
        { headBucket := none, bucketKeys := [], readFile := fun _ => [] }
        "lib/a.js"
        { s3Bucket := none, s3Pfx := some "pre",
          collectOpts := { nodePath := none, cache := none } }).result
      = Except.ok ("aws-lambda-upload", normPfx "pre" ++ md5HexOf [] ++ ".zip") ∧
    (packageZipS3
        { cwd := "/w", collect := fun _ => some (FsNode.dir [] 0 0),
          stubAtime := 0, stubMtime := 0, tmpZipName := "/t.zip", zipOk := true }
        none
        { headBucket := none, bucketKeys := [], readFile := fun _ => [] }
        "lib/a.js"
        { s3Bucket := none, s3Pfx := some "pre",
          collectOpts := { nodePath := none, cache := none } }).uploads
      = [(normPfx "pre" ++ md5HexOf [] ++ ".zip", [], md5B64Of [])] := by
  have h := content_addressed_upload
    { cwd := "/w", collect := fun _ => some (FsNode.dir [] 0 0),
      stubAtime := 0, stubMtime := 0, tmpZipName := "/t.zip", zipOk := true }
    none
    { headBucket := none, bucketKeys := [], readFile := fun _ => [] }
    "lib/a.js"
    { s3Bucket := none, s3Pfx := some "pre",
      collectOpts := { nodePath := none, cache := none } }
    "/t.zip" rfl rfl
  exact ⟨h.1, h.2.2 (by simp)⟩

end AwsLambdaUpload
